import Mathlib

/-!
Verification of the manifest state-matching and text-patching engine of the
recommender IaC pipeline (parser-service).  The JavaScript sources are embedded
shallowly: text is `List Char`, the JS regular expressions used by the code are
embedded as token sequences interpreted by a small backtracking matcher with
JavaScript semantics (leftmost match; greedy / lazy quantifiers), and the
stateful file-walking loops become explicit recursions.  Fallible JS code
(thrown `TypeError`s, `JSON.parse` failures) is modelled with `Except` /
`Option`.
-/

set_option maxHeartbeats 2000000
set_option maxRecDepth 4000

namespace RecIaC

/-- Text is a list of characters (JS strings, ASCII in all inputs of interest). -/
abbrev LC := List Char

/-- JS `\s` for the character range appearing in the manifests (ASCII whitespace). -/
def isWsChar (c : Char) : Bool :=
  c = ' ' || c = '\t' || c = '\n' || c = '\r' || c = '\x0b' || c = '\x0c'

/-- JS `\w` (ASCII word character). -/
def isWordChar (c : Char) : Bool := c.isAlphanum || c = '_'

/-- The character class `[\w -]` of the machine-type pattern. -/
def isMachineTypeChar (c : Char) : Bool := isWordChar c || c = ' ' || c = '-'

/-- JS `String.prototype.split` with a one-character separator (the result is
never empty: splitting the empty string gives `[""]`). -/
def splitOnChar (sep : Char) : LC → List LC
  | [] => [[]]
  | c :: rest =>
    let r := splitOnChar sep rest
    if c = sep then [] :: r else (c :: r.headD []) :: r.tail

/-- JS `Array.prototype.join` with a one-character separator. -/
def joinChar (sep : Char) : List LC → LC
  | [] => []
  | [l] => l
  | l :: ls => l ++ sep :: joinChar sep ls

/-- `text.split('\n')`. -/
def splitLines (s : LC) : List LC := splitOnChar '\n' s

/-- `lines.join('\n')`. -/
def joinLines (ls : List LC) : LC := joinChar '\n' ls

/-! ## A tiny backtracking regex engine

Every regular expression the parser-service builds is (after inlining the
interpolated names) a plain concatenation of string literals and of the
quantified atoms `\s+`, `\s*`, `.+?` (with the `s` flag, so `.` matches
newlines), `.+`, `[\w -]+` and `\w+`.  A token list represents such a
concatenation; `matchToks` matches it at the start of a string, trying
quantifier lengths in exactly the order the JS engine does (greedy: longest
first; lazy: shortest first), and `searchToks` finds the leftmost match, which
is what `RegExp.prototype.exec` returns on the patterns at hand. -/

inductive Tok where
  | lit (s : LC)
  | many (p : Char → Bool) (atLeastOne : Bool) (greedy : Bool)

/-- First `some` in a list of options (the order of backtracking alternatives). -/
def firstSome {α : Type} : List (Option α) → Option α
  | [] => none
  | some a :: _ => some a
  | none :: rest => firstSome rest

/-- Candidate consumption lengths for a quantifier, in the order tried. -/
def candidates (lo hi : Nat) (greedy : Bool) : List Nat :=
  let asc := (List.range (hi + 1 - lo)).map (fun k => lo + k)
  if greedy then asc.reverse else asc

/-- Match a token sequence at the start of `s`; returns the lengths consumed by
each token (JS backtracking order, so the result is the parse JS commits to). -/
def matchToks : List Tok → LC → Option (List Nat)
  | [], _ => some []
  | Tok.lit l :: ts, s =>
    if l.isPrefixOf s then (matchToks ts (s.drop l.length)).map (fun ns => l.length :: ns)
    else none
  | Tok.many p a g :: ts, s =>
    let run := (s.takeWhile p).length
    let lo := if a then 1 else 0
    if run < lo then none
    else firstSome ((candidates lo run g).map (fun k =>
      (matchToks ts (s.drop k)).map (fun ns => k :: ns)))

/-- Leftmost search: `searchAux toks s i` scans suffixes of the subject,
`i` being the index of the current suffix in the full subject. -/
def searchAux (toks : List Tok) : LC → Nat → Option (Nat × List Nat)
  | [], i =>
    match matchToks toks [] with
    | some lens => some (i, lens)
    | none => none
  | c :: rest, i =>
    match matchToks toks (c :: rest) with
    | some lens => some (i, lens)
    | none => searchAux toks rest (i + 1)

/-- `regexp.exec(s)`: index of the leftmost match plus per-token lengths. -/
def searchToks (toks : List Tok) (s : LC) : Option (Nat × List Nat) := searchAux toks s 0

/-- `matches[0]`: the text consumed by a match at index `i` with lengths `lens`. -/
def matchedText (s : LC) (i : Nat) (lens : List Nat) : LC := (s.drop i).take lens.sum

/-- The text consumed by tokens `a ≤ k < b` of a match at index `i` (a capture
group over that token range). -/
def sliceLens (s : LC) (i : Nat) (lens : List Nat) (a b : Nat) : LC :=
  (s.drop (i + (lens.take a).sum)).take (((lens.drop a).take (b - a)).sum)

/-- `String.prototype.replace` with a global regex and a plain replacement
string: repeatedly substitute the leftmost match, resuming after the inserted
replacement (an empty match advances one character, as in JS). -/
def replaceAllAux (toks : List Tok) (repl : LC) : Nat → LC → LC
  | 0, s => s
  | fuel + 1, s =>
    match searchToks toks s with
    | none => s
    | some (i, lens) =>
      let L := lens.sum
      if L = 0 then
        s.take i ++ repl ++ (s.drop i).take 1 ++ replaceAllAux toks repl fuel (s.drop (i + 1))
      else
        s.take i ++ repl ++ replaceAllAux toks repl fuel (s.drop (i + L))

/-- Global replace; the fuel bounds the number of matches, which is at most the
subject length plus one. -/
def replaceAllPat (toks : List Tok) (repl : LC) (s : LC) : LC :=
  replaceAllAux toks repl (s.length + 1) s

/-- `String.prototype.indexOf`: index of the first occurrence of `pat`
(returns `s.length` when absent; all call sites in the source reach it only
when the occurrence exists). -/
def idxOf (pat : LC) : LC → Nat
  | [] => 0
  | s@(_ :: rest) => if pat.isPrefixOf s then 0 else 1 + idxOf pat rest

/-! ## Line-oriented surgery primitives (terraform.js / routes.js) -/

/-- `findLineNumbersFromCharacters` iterates `i = 0 .. index` (inclusive) and
counts the `'\n'` characters it sees; out-of-range reads yield `undefined`,
which never counts.  `countNLUpto s n` is that loop run for `n` iterations. -/
def countNLUpto : LC → Nat → Nat
  | _, 0 => 0
  | [], _ + 1 => 0
  | c :: rest, n + 1 => (if c = '\n' then 1 else 0) + countNLUpto rest n

/-- `findLineNumbersFromCharacters(text, index)` of terraform.js / routes.js. -/
def findLineNumbersFromCharacters (text : LC) (index : Nat) : Nat :=
  1 + countNLUpto text (index + 1)

/-- `commentLines(text, startLine, endLine)`: prepend `/* ` to line
`startLine` and append ` */` to line `endLine` (1-based; the source always
calls it with in-range lines, which the theorems assume). -/
def commentLines (text : LC) (startLine endLine : Nat) : LC :=
  let ls := splitLines text
  let ls := ls.set (startLine - 1) ('/' :: '*' :: ' ' :: ls.getD (startLine - 1) [])
  let ls := ls.set (endLine - 1) (ls.getD (endLine - 1) [] ++ [' ', '*', '/'])
  joinLines ls

/-- `copyLines(text, startLine, endLine)`: `allLines.slice(startLine - 1, endLine).join('\n')`. -/
def copyLines (text : LC) (startLine endLine : Nat) : LC :=
  joinLines (((splitLines text).drop (startLine - 1)).take (endLine - (startLine - 1)))

/-- `replaceLine(contents, lineNum, text)`. -/
def replaceLine (contents : LC) (lineNum : Nat) (text : LC) : LC :=
  joinLines ((splitLines contents).set (lineNum - 1) text)

/-! ## Variable loading (getTFVariables) -/

/-- JS `String.prototype.trim` (ASCII whitespace suffices for the inputs here). -/
def trimWs (s : LC) : LC := ((s.dropWhile isWsChar).reverse.dropWhile isWsChar).reverse

/-- JS object assignment `variables[key] = value`: string keys keep insertion
order; assigning an existing key overwrites in place. -/
def setVar (vars : List (LC × LC)) (k v : LC) : List (LC × LC) :=
  if vars.any (fun kv => kv.1 = k) then vars.map (fun kv => if kv.1 = k then (k, v) else kv)
  else vars ++ [(k, v)]

/-- `getTFVariables` of routes.js: a missing / unreadable file (`none`) is
caught and yields the empty map; each line is split on `'='`, destructured to
its first two segments, and skipped unless both `key` and `value` are
non-empty (JS truthiness); the value has every `'"'` removed, then is trimmed. -/
def getTFVariables : Option LC → List (LC × LC)
  | none => []
  | some contents =>
    (splitLines contents).foldl
      (fun vars line =>
        match splitOnChar '=' line with
        | key :: value :: _ =>
          if key = [] ∨ value = [] then vars
          else setVar vars (trimWs key) (trimWs (value.filter (fun c => c ≠ '"')))
        | _ => vars)
      []

/-- `getTFVariables` of the legacy terraform.js: no guard on the split result,
so a line without `'='` makes `values[1]` `undefined` and
`values[1].replace(...)` throws a `TypeError`; a missing file
(`fs.exists` false) still yields the empty map. -/
def getTFVariablesLegacy : Option LC → Except LC (List (LC × LC))
  | none => Except.ok []
  | some contents =>
    (splitLines contents).foldlM
      (fun vars line =>
        match splitOnChar '=' line with
        | key :: value :: _ =>
          Except.ok (setVar vars (trimWs key) (trimWs (value.filter (fun c => c ≠ '"'))))
        | _ => Except.error ("TypeError: values[1] is undefined".toList))
      []

/-! ## Manifest files and the resolved (matching) view -/

structure TFFile where
  path : LC
  contents : LC
deriving DecidableEq, Repr

/-- The regex `\$\{\s*var\.NAME\s*}` built for a variable name. -/
def varRefToks (name : LC) : List Tok :=
  [Tok.lit ['$', '\x7b'], Tok.many isWsChar false true,
   Tok.lit ("var.".toList ++ name), Tok.many isWsChar false true, Tok.lit ['\x7d']]

/-- `replaceInContents` of routes.js: fold the variable map (in insertion
order) over the file contents with a global regex replace. -/
def replaceInContents (vars : List (LC × LC)) (regOf : LC → List Tok) (file : TFFile) : TFFile :=
  { file with contents := vars.foldl (fun c kv => replaceAllPat (regOf kv.1) kv.2 c) file.contents }

/-- `replaceVariableValuesInTFFiles` (given the already-loaded variable map). -/
def replaceVariableValuesInTFFiles (vars : List (LC × LC)) (files : List TFFile) : List TFFile :=
  files.map (replaceInContents vars varRefToks)

/-- The declaration-scanning regex of `replaceServiceAccountValues`:
`resource\s*"google_service_account"\s*"(\w+)"\s*{.+?account_id\s*=\s*"(\w+)".+?}`;
group 1 is token 5, group 2 is token 14. -/
def saDeclToks : List Tok :=
  [Tok.lit "resource".toList, Tok.many isWsChar false true,
   Tok.lit "\"google_service_account\"".toList, Tok.many isWsChar false true,
   Tok.lit ['"'], Tok.many isWordChar true true, Tok.lit ['"'],
   Tok.many isWsChar false true, Tok.lit ['\x7b'],
   Tok.many (fun _ => true) true false,
   Tok.lit "account_id".toList, Tok.many isWsChar false true, Tok.lit ['='],
   Tok.many isWsChar false true,
   Tok.lit ['"'], Tok.many isWordChar true true, Tok.lit ['"'],
   Tok.many (fun _ => true) true false, Tok.lit ['\x7d']]

/-- First pass of `replaceServiceAccountValues`: one `exec` per file, building
the name → account_id map in file order. -/
def scanServiceAccounts (files : List TFFile) : List (LC × LC) :=
  files.foldl
    (fun sas file =>
      match searchToks saDeclToks file.contents with
      | some (i, lens) =>
        setVar sas (sliceLens file.contents i lens 5 6) (sliceLens file.contents i lens 15 16)
      | none => sas)
    []

/-- The regex `\$\{\s*google_service_account\.SA\.account_id\s*}`. -/
def saRefToks (sa : LC) : List Tok :=
  [Tok.lit ['$', '\x7b'], Tok.many isWsChar false true,
   Tok.lit ("google_service_account.".toList ++ sa ++ ".account_id".toList),
   Tok.many isWsChar false true, Tok.lit ['\x7d']]

/-- `replaceServiceAccountValues` of routes.js. -/
def replaceServiceAccountValues (files : List TFFile) : List TFFile :=
  let sas := scanServiceAccounts files
  if sas = [] then files else files.map (replaceInContents sas saRefToks)

/-! ## The state snapshot and the VM state matcher -/

/-- The attribute fields the engine reads from a state instance
(`attributes` is an open string map in the snapshot). -/
structure InstanceAttributes where
  id : LC := []
  project : LC := []
  role : LC := []
  members : List LC := []
deriving DecidableEq, Repr

structure StateInstance where
  attributes : InstanceAttributes
deriving DecidableEq, Repr

structure StateResource where
  type : LC
  name : LC
  instances : List StateInstance
deriving DecidableEq, Repr

structure TFState where
  resources : List StateResource
deriving DecidableEq, Repr

/-- A VM rightsizing recommendation as produced by
`filterVMSizeRecommendations` (note the all-caps `ETAG` field name the source
actually uses). -/
structure VMRecommendation where
  instanceID : LC
  size : LC
  recommendationID : LC
  recommendationETAG : LC
deriving DecidableEq, Repr

/-- A recommendation enriched with the declaration name found in the state. -/
structure VMMatchedResource where
  vm : VMRecommendation
  tfResourceName : LC
deriving DecidableEq, Repr

def instanceIdPrefix : LC := "//compute.googleapis.com/".toList

/-- The innermost `vmList.forEach` of `getVMResourcesByIdFromState`
(routes.js): push every recommendation whose `instanceID`, minus the
self-link prefix, equals the instance's `id` attribute. -/
def vmMatchesForInstance (rname : LC) (inst : StateInstance) :
    List VMRecommendation → List VMMatchedResource
  | [] => []
  | vm :: rest =>
    if vm.instanceID.drop instanceIdPrefix.length = inst.attributes.id then
      ⟨vm, rname⟩ :: vmMatchesForInstance rname inst rest
    else vmMatchesForInstance rname inst rest

/-- The `resource.instances.forEach` level of `getVMResourcesByIdFromState`. -/
def vmMatchesForResource (r : StateResource) (vmList : List VMRecommendation) :
    List VMMatchedResource :=
  if r.type = "google_compute_instance".toList then
    r.instances.flatMap (fun inst => vmMatchesForInstance r.name inst vmList)
  else []

/-- `getVMResourcesByIdFromState(state, vmList)` of routes.js. -/
def getVMResourcesByIdFromState (state : TFState) (vmList : List VMRecommendation) :
    List VMMatchedResource :=
  state.resources.flatMap (fun r => vmMatchesForResource r vmList)

/-! ## VM patch coordinator (findAndModifyInstances) -/

structure ClaimedRecommendation where
  id : LC
  etag : LC
deriving DecidableEq, Repr

def vmClaimOf (r : VMMatchedResource) : ClaimedRecommendation :=
  ⟨r.vm.recommendationID, r.vm.recommendationETAG⟩

/-- The regex
`(resource\s+"google_compute_instance"\s+"NAME".+?machine_type\s+=\s+)"([\w -]+)"`
(flags `gs`); the declaration name is interpolated literally. -/
def vmDeclToks (name : LC) : List Tok :=
  [Tok.lit "resource".toList, Tok.many isWsChar true true,
   Tok.lit "\"google_compute_instance\"".toList, Tok.many isWsChar true true,
   Tok.lit ('"' :: name ++ ['"']),
   Tok.many (fun _ => true) true false,
   Tok.lit "machine_type".toList, Tok.many isWsChar true true, Tok.lit ['='],
   Tok.many isWsChar true true,
   Tok.lit ['"'], Tok.many isMachineTypeChar true true, Tok.lit ['"']]

/-- The per-file body of the `tfFiles.map` in `findAndModifyInstances`:
search the resolved contents; on a match, replace — in the *original*
contents — the line of the first `machine_type` occurrence inside the match
with the recommended size. -/
def vmProcessFile (r : VMMatchedResource) (resolved orig : LC) : Option LC :=
  match searchToks (vmDeclToks r.tfResourceName) resolved with
  | none => none
  | some (i, lens) =>
    let matched := matchedText resolved i lens
    let ln := findLineNumbersFromCharacters resolved (i + idxOf "machine_type".toList matched)
    some (replaceLine orig ln ("  machine_type = \"".toList ++ r.vm.size ++ ['"']))

/-- One `resources.forEach` iteration: map over the (fixed) resolved files in
parallel with the current originals, collecting one claim per matching file. -/
def vmApplyFiles (r : VMMatchedResource) :
    List TFFile → List TFFile → List TFFile × List ClaimedRecommendation
  | tf :: tfs, og :: ogs =>
    let rest := vmApplyFiles r tfs ogs
    match vmProcessFile r tf.contents og.contents with
    | some c => (⟨tf.path, c⟩ :: rest.1, vmClaimOf r :: rest.2)
    | none => (og :: rest.1, rest.2)
  | _, _ => ([], [])

/-- The `resources.forEach` fold: each resource consumes the current original
files (edited so far) and the fixed resolved view. -/
def vmApplyAll (tfFiles : List TFFile) :
    List TFFile → List VMMatchedResource → List TFFile × List ClaimedRecommendation
  | origs, [] => (origs, [])
  | origs, r :: rs =>
    let step := vmApplyFiles r tfFiles origs
    let rest := vmApplyAll tfFiles step.1 rs
    (rest.1, step.2 ++ rest.2)

/-- `findAndModifyInstances` of routes.js, as a pure function of the loaded
manifest files, the contents of `terraform.tfvars` (`none` when absent) and
the matched resources: returns the final file contents and the claims. -/
def findAndModifyInstances (files : List TFFile) (tfvars : Option LC)
    (resources : List VMMatchedResource) : List TFFile × List ClaimedRecommendation :=
  let vars := getTFVariables tfvars
  let tfFiles := replaceVariableValuesInTFFiles vars files
  vmApplyAll tfFiles files resources

/-- JS `String.prototype.replace` with a plain (non-regex) search string:
replace the first occurrence only. -/
def replaceFirst (pat repl s : LC) : LC :=
  if pat <:+: s then s.take (idxOf pat s) ++ repl ++ s.drop (idxOf pat s + pat.length)
  else s

/-- The write-back step shared by both coordinators: *every* entry of the
final file list is written, to `file.path.replace(repoPath, writePath)` where
`writePath = destPath || repoPath`. -/
def writeSet (repoPath : LC) (destPath : Option LC) (finalFiles : List TFFile) : List TFFile :=
  let writePath := destPath.getD repoPath
  finalFiles.map (fun f => ⟨replaceFirst repoPath writePath f.path, f.contents⟩)

/-! ## JSON.parse for the members-array literal

`findAndModifyIAMRoleBindings` runs `JSON.parse` on capture group 1, which on
well-formed manifests is a JSON array of strings.  The model parses exactly
that shape (strings with the standard escapes; `\u` escapes and non-string
elements are out of scope of the runs the claims quantify over) and fails —
as `JSON.parse` throws — on anything else, trailing commas included. -/

def jsonEscape (e : Char) : Option Char :=
  if e = '"' ∨ e = '\\' ∨ e = '/' then some e
  else if e = 'b' then some '\x08'
  else if e = 'f' then some '\x0c'
  else if e = 'n' then some '\n'
  else if e = 'r' then some '\r'
  else if e = 't' then some '\t'
  else none

/-- Parse a JSON string body (after the opening quote); returns the decoded
content and the remainder after the closing quote. -/
def jsonString : LC → Option (LC × LC)
  | [] => none
  | '"' :: rest => some ([], rest)
  | '\\' :: e :: rest => do
    let c ← jsonEscape e
    let (s, r) ← jsonString rest
    pure (c :: s, r)
  | c :: rest =>
    if c.toNat < 32 then none
    else do
      let (s, r) ← jsonString rest
      pure (c :: s, r)

def jsonWs (c : Char) : Bool := c = ' ' || c = '\t' || c = '\n' || c = '\r'

def skipJsonWs (s : LC) : LC := s.dropWhile jsonWs

/-- After a parsed element: `, "elem"` repetitions then `]`. -/
def jsonArrayTail (fuel : Nat) (acc : List LC) (s : LC) : Option (List LC × LC) :=
  match fuel with
  | 0 => none
  | fuel + 1 =>
    match skipJsonWs s with
    | ']' :: rest => some (acc.reverse, rest)
    | ',' :: rest =>
      match skipJsonWs rest with
      | '"' :: rest2 => do
        let (str, r) ← jsonString rest2
        jsonArrayTail fuel (str :: acc) r
      | _ => none
    | _ => none

/-- `JSON.parse` restricted to arrays of strings; `none` models the thrown
`SyntaxError`. -/
def jsonParseStringArray (s : LC) : Option (List LC) :=
  match skipJsonWs s with
  | '[' :: rest =>
    match skipJsonWs rest with
    | ']' :: tail => if skipJsonWs tail = [] then some [] else none
    | '"' :: rest2 => do
      let (str, r) ← jsonString rest2
      let (items, tail) ← jsonArrayTail s.length [str] r
      if skipJsonWs tail = [] then some items else none
    | _ => none
  | _ => none

/-! ## IAM patch coordinator (findAndModifyIAMRoleBindings) -/

/-- An IAM recommendation enriched by the state matcher with the declaration
block name (and the state's literal project value). -/
structure IAMMatchedResource where
  project : LC
  member : LC
  role : LC
  add : LC
  recommendationID : LC
  recommendationETAG : LC
  resourceName : LC
deriving DecidableEq, Repr

def iamClaimOf (r : IAMMatchedResource) : ClaimedRecommendation :=
  ⟨r.recommendationID, r.recommendationETAG⟩

/-- The regex
`resource\s+"google_project_iam_binding"\s+"RES"\s+{.+?project\s*=\s*"PROJ".+?role\s*=\s*"ROLE".+?members\s*=\s*(\[.+?"MEMBER".+?\]).+?}`
(flags `gs`); group 1 — the members literal — spans tokens 24–28. -/
def iamDeclToks (r : IAMMatchedResource) : List Tok :=
  [Tok.lit "resource".toList, Tok.many isWsChar true true,
   Tok.lit "\"google_project_iam_binding\"".toList, Tok.many isWsChar true true,
   Tok.lit ('"' :: r.resourceName ++ ['"']), Tok.many isWsChar true true,
   Tok.lit ['\x7b'],
   Tok.many (fun _ => true) true false,
   Tok.lit "project".toList, Tok.many isWsChar false true, Tok.lit ['='],
   Tok.many isWsChar false true, Tok.lit ('"' :: r.project ++ ['"']),
   Tok.many (fun _ => true) true false,
   Tok.lit "role".toList, Tok.many isWsChar false true, Tok.lit ['='],
   Tok.many isWsChar false true, Tok.lit ('"' :: r.role ++ ['"']),
   Tok.many (fun _ => true) true false,
   Tok.lit "members".toList, Tok.many isWsChar false true, Tok.lit ['='],
   Tok.many isWsChar false true,
   Tok.lit ['['], Tok.many (fun _ => true) true false,
   Tok.lit ('"' :: r.member ++ ['"']), Tok.many (fun _ => true) true false,
   Tok.lit [']'],
   Tok.many (fun _ => true) true false, Tok.lit ['\x7d']]

/-- The role-rewriting regex `/(.+role\s*=\s*").+?(".+)/gs` used on the
appended copy: group 1 spans tokens 0–5, the replaced value is token 6, and
group 2 spans tokens 7–8. -/
def roleReplToks : List Tok :=
  [Tok.many (fun _ => true) true true,
   Tok.lit "role".toList, Tok.many isWsChar false true, Tok.lit ['='],
   Tok.many isWsChar false true, Tok.lit ['"'],
   Tok.many (fun _ => true) true false,
   Tok.lit ['"'], Tok.many (fun _ => true) true true]

/-- `additionalLines.replace(/(.+role\s*=\s*").+?(".+)/gs, `$1ADD$2`)`: the
greedy leading `.+` makes the (single possible) match rewrite the value of the
*last* matchable role-assignment, keeping `$1` and `$2` verbatim. -/
def roleReplace (add : LC) (s : LC) : LC :=
  match searchToks roleReplToks s with
  | none => s
  | some (i, lens) =>
    s.take i ++ sliceLens s i lens 0 6 ++ add ++ sliceLens s i lens 7 9 ++ s.drop (i + lens.sum)

/-- The per-file body of the `tfFiles.map` in `findAndModifyIAMRoleBindings`:
`.ok none` = no match (file untouched, no claim); `.ok (some c)` = match, new
original contents `c` (and a claim); `.error` = `JSON.parse` threw. -/
def iamProcessFile (r : IAMMatchedResource) (resolved orig : LC) : Except LC (Option LC) :=
  match searchToks (iamDeclToks r) resolved with
  | none => Except.ok none
  | some (i, lens) =>
    let matched := matchedText resolved i lens
    let membersLit := sliceLens resolved i lens 24 29
    match jsonParseStringArray membersLit with
    | none => Except.error ("SyntaxError: JSON.parse".toList)
    | some members =>
      match members.filter (fun m => m ≠ r.member) with
      | _ :: _ =>
        let ln := findLineNumbersFromCharacters resolved
          (i + idxOf ('"' :: r.member ++ ['"']) matched)
        Except.ok (some (commentLines orig ln ln))
      | [] =>
        let startLine := findLineNumbersFromCharacters resolved i
        let endLine := findLineNumbersFromCharacters resolved (i + lens.sum)
        let contents := commentLines orig startLine endLine
        let additionalLines :=
          if r.add = [] then []
          else roleReplace r.add ('\n' :: '\n' :: copyLines orig startLine endLine)
        Except.ok (some (contents ++ additionalLines))

/-- One `resources.forEach` iteration of the IAM flow (file order preserved;
a thrown parse error aborts the whole call, as in JS). -/
def iamApplyFiles (r : IAMMatchedResource) :
    List TFFile → List TFFile → Except LC (List TFFile × List ClaimedRecommendation)
  | tf :: tfs, og :: ogs =>
    match iamProcessFile r tf.contents og.contents with
    | Except.error e => Except.error e
    | Except.ok none =>
      (iamApplyFiles r tfs ogs).map (fun rest => (og :: rest.1, rest.2))
    | Except.ok (some c) =>
      (iamApplyFiles r tfs ogs).map (fun rest => (⟨tf.path, c⟩ :: rest.1, iamClaimOf r :: rest.2))
  | _, _ => Except.ok ([], [])

/-- The `resources.forEach` fold of the IAM flow. -/
def iamApplyAll (tfFiles : List TFFile) :
    List TFFile → List IAMMatchedResource → Except LC (List TFFile × List ClaimedRecommendation)
  | origs, [] => Except.ok (origs, [])
  | origs, r :: rs =>
    match iamApplyFiles r tfFiles origs with
    | Except.error e => Except.error e
    | Except.ok step =>
      match iamApplyAll tfFiles step.1 rs with
      | Except.error e => Except.error e
      | Except.ok rest => Except.ok (rest.1, step.2 ++ rest.2)

/-- `findAndModifyIAMRoleBindings` of routes.js as a pure function: resolve
the view (variables pass, then service-account pass), then fold the matched
resources over the files. -/
def findAndModifyIAMRoleBindings (files : List TFFile) (tfvars : Option LC)
    (resources : List IAMMatchedResource) :
    Except LC (List TFFile × List ClaimedRecommendation) :=
  let vars := getTFVariables tfvars
  let tfFiles := replaceServiceAccountValues (replaceVariableValuesInTFFiles vars files)
  iamApplyAll tfFiles files resources

/-! ## The legacy manifest-extension check (terraform.js readAllTFFiles) -/

structure DirEntry where
  name : LC
  isDir : Bool
deriving DecidableEq, Repr

/-- The legacy filter body: `file.split('.')[1].toLowerCase() == 'tf'`.  A name
without `'.'` makes `split('.')[1]` `undefined`, so `.toLowerCase()` throws. -/
def legacyIsTF (name : LC) : Except LC Bool :=
  match (splitOnChar '.' name).get? 1 with
  | none => Except.error ("TypeError: extension is undefined".toList)
  | some ext => Except.ok (ext.map Char.toLower == ['t', 'f'])

/-- The filter of the legacy `readAllTFFiles` over a directory listing:
directories are dropped without inspection; a regular file's name is run
through `legacyIsTF`, whose `TypeError` aborts the whole read. -/
def legacyFilterTFFiles : List DirEntry → Except LC (List LC)
  | [] => Except.ok []
  | e :: rest =>
    if e.isDir then legacyFilterTFFiles rest
    else
      match legacyIsTF e.name with
      | Except.error msg => Except.error msg
      | Except.ok true => (legacyFilterTFFiles rest).map (fun l => e.name :: l)
      | Except.ok false => legacyFilterTFFiles rest

/-- The declarative meaning of a token-sequence match: `Consumes toks lens s`
says the tokens consume successive prefixes of `s` of the given lengths, each
piece fitting its token. -/
def Consumes : List Tok → List Nat → LC → Prop
  | [], [], _ => True
  | Tok.lit l :: ts, n :: ns, s => n = l.length ∧ l <+: s ∧ Consumes ts ns (s.drop n)
  | Tok.many p a _ :: ts, n :: ns, s =>
      (a = true → 1 ≤ n) ∧ n ≤ s.length ∧ (∀ c ∈ s.take n, p c = true) ∧
        Consumes ts ns (s.drop n)
  | _, _, _ => False

instance {ε α : Type} [DecidableEq ε] [DecidableEq α] : DecidableEq (Except ε α)
  | Except.error a, Except.error b =>
    if h : a = b then isTrue (by rw [h]) else isFalse (fun hh => h (by cases hh; rfl))
  | Except.error _, Except.ok _ => isFalse (fun hh => Except.noConfusion hh)
  | Except.ok _, Except.error _ => isFalse (fun hh => Except.noConfusion hh)
  | Except.ok a, Except.ok b =>
    if h : a = b then isTrue (by rw [h]) else isFalse (fun hh => h (by cases hh; rfl))

/-- A line is malformed for the variable-file format: no `'='`, or an empty
key or value segment. -/
def malformedVarLine (line : LC) : Prop :=
  (splitOnChar '=' line).length < 2 ∨
    (splitOnChar '=' line).getD 0 [] = [] ∨ (splitOnChar '=' line).getD 1 [] = []

instance : DecidablePred malformedVarLine := fun line => by
  unfold malformedVarLine
  infer_instance

/-! ## Basic lemmas on the splitting and joining of lines -/

theorem splitOnChar_ne_nil (sep : Char) (s : LC) : splitOnChar sep s ≠ [] := by
  cases s with
  | nil => simp [splitOnChar]
  | cons c rest =>
    simp only [splitOnChar]
    split <;> simp

theorem splitOnChar_sep_cons (sep : Char) (s : LC) :
    splitOnChar sep (sep :: s) = [] :: splitOnChar sep s := by
  simp [splitOnChar]

theorem splitOnChar_not_sep_cons (sep c : Char) (s : LC) (h : c ≠ sep) :
    splitOnChar sep (c :: s) =
      (c :: (splitOnChar sep s).headD []) :: (splitOnChar sep s).tail := by
  simp [splitOnChar, h]

theorem not_mem_of_mem_splitOnChar (sep : Char) (s : LC) :
    ∀ l ∈ splitOnChar sep s, sep ∉ l := by
  induction s with
  | nil => simp [splitOnChar]
  | cons c rest ih =>
    rcases hr : splitOnChar sep rest with _ | ⟨x, xs⟩
    · exact absurd hr (splitOnChar_ne_nil sep rest)
    · rw [hr] at ih
      by_cases h : c = sep
      · subst h
        rw [splitOnChar_sep_cons, hr]
        intro l hl
        rcases List.mem_cons.mp hl with hl' | hl'
        · simp [hl']
        · exact ih l hl'
      · rw [splitOnChar_not_sep_cons sep c _ h, hr]
        intro l hl
        rcases List.mem_cons.mp hl with hl' | hl'
        · subst hl'
          intro hmem
          rcases List.mem_cons.mp hmem with hmem' | hmem'
          · exact h hmem'.symm
          · exact ih x (by simp) (by simpa using hmem')
        · exact ih l (List.mem_cons_of_mem _ hl')

theorem joinChar_cons (sep : Char) (l : LC) (x : LC) (xs : List LC) :
    joinChar sep (l :: x :: xs) = l ++ sep :: joinChar sep (x :: xs) := rfl

theorem join_splitOnChar (sep : Char) (s : LC) : joinChar sep (splitOnChar sep s) = s := by
  induction s with
  | nil => simp [splitOnChar, joinChar]
  | cons c rest ih =>
    rcases hr : splitOnChar sep rest with _ | ⟨x, xs⟩
    · exact absurd hr (splitOnChar_ne_nil sep rest)
    · rw [hr] at ih
      by_cases h : c = sep
      · subst h
        rw [splitOnChar_sep_cons, hr, joinChar_cons, ih]
        simp
      · rw [splitOnChar_not_sep_cons sep c _ h, hr]
        cases xs with
        | nil => simpa [joinChar] using congrArg (c :: ·) ih
        | cons y ys =>
          simp only [List.headD, List.tail]
          rw [joinChar_cons] at ih ⊢
          simp [← ih]

theorem splitOnChar_of_not_mem (sep : Char) (s : LC) (h : sep ∉ s) :
    splitOnChar sep s = [s] := by
  induction s with
  | nil => simp [splitOnChar]
  | cons c rest ih =>
    have hc : c ≠ sep := fun hc => h (by simp [hc])
    rw [splitOnChar_not_sep_cons sep c _ hc,
      ih (fun hm => h (List.mem_cons_of_mem _ hm))]
    simp

/-- Splitting a concatenation: the pieces of `a` except the last, then the
last piece of `a` merged onto the first piece of `b`, then the rest of `b`. -/
theorem splitOnChar_append (sep : Char) (a b : LC) :
    splitOnChar sep (a ++ b) =
      (splitOnChar sep a).dropLast ++
        ((splitOnChar sep b).modifyHead (fun h => (splitOnChar sep a).getLastD [] ++ h)) := by
  induction a with
  | nil =>
    rcases hb : splitOnChar sep b with _ | ⟨x, xs⟩
    · exact absurd hb (splitOnChar_ne_nil sep b)
    · simp [splitOnChar, hb]
  | cons c rest ih =>
    by_cases h : c = sep
    · subst h
      rw [List.cons_append, splitOnChar_sep_cons, splitOnChar_sep_cons, ih]
      rcases hr : splitOnChar c rest with _ | ⟨x, xs⟩
      · exact absurd hr (splitOnChar_ne_nil c rest)
      · simp [List.dropLast_cons_of_ne_nil, List.getLastD_cons,
          List.getLastD_eq_getLast?, List.getLast?_cons]
    · rw [List.cons_append, splitOnChar_not_sep_cons sep c _ h,
        splitOnChar_not_sep_cons sep c _ h, ih]
      rcases hr : splitOnChar sep rest with _ | ⟨x, xs⟩
      · exact absurd hr (splitOnChar_ne_nil sep rest)
      · rcases hb : splitOnChar sep b with _ | ⟨y, ys⟩
        · exact absurd hb (splitOnChar_ne_nil sep b)
        · cases xs with
          | nil => simp
          | cons z zs => simp

theorem splitOnChar_joinChar (sep : Char) (ls : List LC)
    (h : ∀ l ∈ ls, sep ∉ l) (h0 : ls ≠ []) :
    splitOnChar sep (joinChar sep ls) = ls := by
  induction ls with
  | nil => exact absurd rfl h0
  | cons l rest ih =>
    cases rest with
    | nil =>
      show splitOnChar sep (joinChar sep [l]) = [l]
      exact splitOnChar_of_not_mem sep l (h l (by simp))
    | cons x xs =>
      rw [joinChar_cons, splitOnChar_append, splitOnChar_of_not_mem sep l (h l (by simp)),
        splitOnChar_sep_cons, ih (fun m hm => h m (List.mem_cons_of_mem _ hm)) (by simp)]
      simp

theorem length_splitOnChar (sep : Char) (s : LC) :
    (splitOnChar sep s).length = s.count sep + 1 := by
  induction s with
  | nil => simp [splitOnChar]
  | cons c rest ih =>
    by_cases h : c = sep
    · subst h
      rw [splitOnChar_sep_cons]
      simp [ih, List.count_cons]
    · rw [splitOnChar_not_sep_cons sep c _ h]
      rcases hr : splitOnChar sep rest with _ | ⟨x, xs⟩
      · exact absurd hr (splitOnChar_ne_nil sep rest)
      · rw [hr] at ih
        simp only [List.length_cons] at ih ⊢
        simp [List.count_cons, h, ← ih]

/-! ## Lines of text: derived facts used by the claims -/

theorem not_nl_of_mem_splitLines (s : LC) : ∀ l ∈ splitLines s, '\n' ∉ l :=
  not_mem_of_mem_splitOnChar '\n' s

theorem splitLines_joinLines (ls : List LC) (h : ∀ l ∈ ls, '\n' ∉ l) (h0 : ls ≠ []) :
    splitLines (joinLines ls) = ls :=
  splitOnChar_joinChar '\n' ls h h0

theorem joinLines_splitLines (s : LC) : joinLines (splitLines s) = s :=
  join_splitOnChar '\n' s

theorem length_splitLines (s : LC) : (splitLines s).length = s.count '\n' + 1 :=
  length_splitOnChar '\n' s

/-- The lines of `replaceLine text n newText`, for a newline-free
replacement, are exactly the lines of `text` with entry `n - 1` replaced. -/
theorem splitLines_replaceLine (text newText : LC) (n : Nat) (hnl : '\n' ∉ newText) :
    splitLines (replaceLine text n newText) = (splitLines text).set (n - 1) newText := by
  unfold replaceLine
  apply splitLines_joinLines
  · intro l hl
    rcases List.mem_or_eq_of_mem_set hl with hl' | hl'
    · exact not_nl_of_mem_splitLines text l hl'
    · exact hl' ▸ hnl
  · intro hc
    have := congrArg List.length hc
    simp [length_splitLines] at this

/-- The lines of `commentLines text s e` are the lines of `text` with the two
marker insertions performed by the source (first at `s - 1`, then at `e - 1`
on the already-updated array). -/
theorem splitLines_commentLines (text : LC) (s e : Nat) :
    splitLines (commentLines text s e) =
      ((splitLines text).set (s - 1)
          ('/' :: '*' :: ' ' :: (splitLines text).getD (s - 1) [])).set (e - 1)
        ((((splitLines text).set (s - 1)
            ('/' :: '*' :: ' ' :: (splitLines text).getD (s - 1) [])).getD (e - 1) []) ++
          [' ', '*', '/']) := by
  unfold commentLines
  apply splitLines_joinLines
  · intro l hl
    rcases List.mem_or_eq_of_mem_set hl with hl' | hl'
    · rcases List.mem_or_eq_of_mem_set hl' with hl'' | hl''
      · exact not_nl_of_mem_splitLines text l hl''
      · subst hl''
        intro hmem
        rcases List.mem_cons.mp hmem with h | h
        · cases h
        · rcases List.mem_cons.mp h with h' | h'
          · cases h'
          · rcases List.mem_cons.mp h' with h'' | h''
            · cases h''
            · by_cases hlt : s - 1 < (splitLines text).length
              · have : (splitLines text).getD (s - 1) [] ∈ splitLines text := by
                  rw [List.getD_eq_getElem?_getD, List.getElem?_eq_getElem hlt]
                  exact List.getElem_mem _
                exact not_nl_of_mem_splitLines text _ this h''
              · rw [List.getD_eq_getElem?_getD, List.getElem?_eq_none (by omega)] at h''
                simp at h''
    · subst hl'
      intro hmem
      rcases List.mem_append.mp hmem with h | h
      · set ls1 := (splitLines text).set (s - 1)
          ('/' :: '*' :: ' ' :: (splitLines text).getD (s - 1) []) with hls1
        by_cases hlt : e - 1 < ls1.length
        · have hm : ls1.getD (e - 1) [] ∈ ls1 := by
            rw [List.getD_eq_getElem?_getD, List.getElem?_eq_getElem hlt]
            exact List.getElem_mem _
          rcases List.mem_or_eq_of_mem_set hm with hm' | hm'
          · exact not_nl_of_mem_splitLines text _ hm' h
          · rw [hm'] at h
            rcases List.mem_cons.mp h with h' | h'
            · cases h'
            · rcases List.mem_cons.mp h' with h'' | h''
              · cases h''
              · rcases List.mem_cons.mp h'' with h3 | h3
                · cases h3
                · by_cases hlt2 : s - 1 < (splitLines text).length
                  · have : (splitLines text).getD (s - 1) [] ∈ splitLines text := by
                      rw [List.getD_eq_getElem?_getD, List.getElem?_eq_getElem hlt2]
                      exact List.getElem_mem _
                    exact not_nl_of_mem_splitLines text _ this h3
                  · rw [List.getD_eq_getElem?_getD, List.getElem?_eq_none (by omega)] at h3
                    simp at h3
        · rw [List.getD_eq_getElem?_getD, List.getElem?_eq_none (by omega)] at h
          simp at h
      · rcases List.mem_cons.mp h with h' | h'
        · cases h'
        · rcases List.mem_cons.mp h' with h'' | h''
          · cases h''
          · rcases List.mem_cons.mp h'' with h3 | h3
            · cases h3
            · cases h3
  · intro hc
    have := congrArg List.length hc
    simp [length_splitLines] at this

/-- `countNLUpto` is the newline count of the corresponding prefix. -/
theorem countNLUpto_eq_count_take (s : LC) :
    ∀ n, countNLUpto s n = (s.take n).count '\n' := by
  induction s with
  | nil => intro n; cases n <;> simp [countNLUpto]
  | cons c rest ih =>
    intro n
    cases n with
    | zero => simp [countNLUpto]
    | succ m =>
      simp only [countNLUpto, List.take_succ_cons, List.count_cons, ih m]
      by_cases h : c = '\n'
      · simp [h]
        omega
      · simp [h]

/-! ## Claim C8: offset-to-line translation -/

/-- C8: for every text and every character offset within the text, the
offset-to-line translation `findLineNumbersFromCharacters` returns 1 plus the
number of newline characters at positions 0 through the offset inclusive
(1-based, and an offset pointing at a newline counts that newline). -/
theorem claim_C8 (text : LC) (offset : Nat) (_h : offset < text.length) :
    findLineNumbersFromCharacters text offset =
      1 + ((text.take (offset + 1)).count '\n') := by
  unfold findLineNumbersFromCharacters
  rw [countNLUpto_eq_count_take]

theorem claim_C8_witness :
    2 < ("ab\ncd".toList).length ∧
      findLineNumbersFromCharacters "ab\ncd".toList 2 =
        1 + (("ab\ncd".toList.take 3).count '\n') :=
  ⟨by decide, claim_C8 "ab\ncd".toList 2 (by decide)⟩

/-! ## Claim C9: line surgery preserves line count and all other lines -/

/-- C9: for every text and every line index within the text's line range, the
line-surgery primitives `replaceLine` and `commentLines` return a text with
exactly the same number of lines as the input, and every line other than the
replaced line (for `replaceLine`, replacing by a single line) or the start and
end lines of the range (for `commentLines`) is byte-for-byte equal to the
corresponding input line. -/
theorem claim_C9 :
    (∀ (text newText : LC) (n : Nat),
        1 ≤ n → n ≤ (splitLines text).length → '\n' ∉ newText →
        (splitLines (replaceLine text n newText)).length = (splitLines text).length ∧
        ∀ j, j ≠ n - 1 →
          (splitLines (replaceLine text n newText)).getD j [] =
            (splitLines text).getD j []) ∧
    (∀ (text : LC) (s e : Nat),
        1 ≤ s → s ≤ (splitLines text).length → 1 ≤ e → e ≤ (splitLines text).length →
        (splitLines (commentLines text s e)).length = (splitLines text).length ∧
        ∀ j, j ≠ s - 1 → j ≠ e - 1 →
          (splitLines (commentLines text s e)).getD j [] =
            (splitLines text).getD j []) := by
  constructor
  · intro text newText n _ _ hnl
    rw [splitLines_replaceLine text newText n hnl]
    refine ⟨by simp, ?_⟩
    intro j hj
    rw [List.getD_eq_getElem?_getD, List.getD_eq_getElem?_getD,
      List.getElem?_set_ne (fun h => hj h.symm)]
  · intro text s e _ _ _ _
    rw [splitLines_commentLines text s e]
    refine ⟨by simp, ?_⟩
    intro j hjs hje
    rw [List.getD_eq_getElem?_getD, List.getD_eq_getElem?_getD,
      List.getElem?_set_ne (fun h => hje h.symm),
      List.getElem?_set_ne (fun h => hjs h.symm)]
    exact (List.getD_eq_getElem?_getD _ _ _).symm

theorem claim_C9_witness :
    (splitLines (replaceLine "a\nb\nc".toList 2 "XX".toList)).getD 0 [] =
        (splitLines "a\nb\nc".toList).getD 0 [] ∧
      (splitLines (commentLines "a\nb\nc".toList 1 1)).getD 2 [] =
        (splitLines "a\nb\nc".toList).getD 2 [] :=
  ⟨(claim_C9.1 "a\nb\nc".toList "XX".toList 2 (by decide) (by decide) (by decide)).2
      0 (by decide),
   (claim_C9.2 "a\nb\nc".toList 1 1 (by decide) (by decide) (by decide) (by decide)).2
      2 (by decide) (by decide)⟩

/-! ## Claim C10: the legacy extension check is not total -/

theorem legacyIsTF_error_of_no_dot (name : LC) (h : '.' ∉ name) :
    legacyIsTF name = Except.error ("TypeError: extension is undefined".toList) := by
  have hlen : (splitOnChar '.' name).length = 1 := by
    rw [length_splitOnChar]
    simp [List.count_eq_zero.mpr h]
  have hnone : (splitOnChar '.' name).get? 1 = none := List.get?_eq_none.mpr (by omega)
  unfold legacyIsTF
  rw [hnone]

theorem legacyIsTF_ok_of_dot (name : LC) (h : '.' ∈ name) :
    ∃ b, legacyIsTF name = Except.ok b := by
  have hlen : 2 ≤ (splitOnChar '.' name).length := by
    rw [length_splitOnChar]
    have := List.count_pos_iff.mpr h
    omega
  have hext := List.get?_eq_get (show 1 < (splitOnChar '.' name).length by omega)
  refine ⟨((splitOnChar '.' name).get ⟨1, by omega⟩).map Char.toLower == ['t', 'f'], ?_⟩
  unfold legacyIsTF
  rw [hext]

/-- C10: the legacy manifest loader's extension check (`file.split('.')[1]`)
is not total: a directory listing containing a regular file whose name has no
`'.'` makes `readAllTFFiles` of terraform.js fail with a `TypeError` instead
of skipping the file; under the precondition that every regular file name
contains a `'.'`, the error branch is unreachable. -/
theorem claim_C10 :
    (∀ entries : List DirEntry,
        (∃ e ∈ entries, e.isDir = false ∧ '.' ∉ e.name) →
        ∃ msg, legacyFilterTFFiles entries = Except.error msg) ∧
    (∀ entries : List DirEntry,
        (∀ e ∈ entries, e.isDir = false → '.' ∈ e.name) →
        ∃ l, legacyFilterTFFiles entries = Except.ok l) := by
  constructor
  · intro entries h
    induction entries with
    | nil => simp at h
    | cons e rest ih =>
      rcases h with ⟨b, hb, hreg, hdot⟩
      rcases List.mem_cons.mp hb with hb' | hb'
      · subst hb'
        have hmsg := legacyIsTF_error_of_no_dot b.name hdot
        refine ⟨"TypeError: extension is undefined".toList, ?_⟩
        unfold legacyFilterTFFiles
        rw [if_neg (by simp [hreg]), hmsg]
      · have ⟨msg, hmsg⟩ := ih ⟨b, hb', hreg, hdot⟩
        by_cases hd : e.isDir
        · exact ⟨msg, by unfold legacyFilterTFFiles; rw [if_pos hd, hmsg]⟩
        · rcases htf : legacyIsTF e.name with m | bb
          · exact ⟨m, by unfold legacyFilterTFFiles; rw [if_neg hd, htf]⟩
          · cases bb
            · exact ⟨msg, by unfold legacyFilterTFFiles; rw [if_neg hd, htf, hmsg]⟩
            · exact ⟨msg, by unfold legacyFilterTFFiles; rw [if_neg hd, htf, hmsg]; rfl⟩
  · intro entries h
    induction entries with
    | nil => exact ⟨[], rfl⟩
    | cons e rest ih =>
      have ⟨l, hl⟩ := ih (fun b hb hreg => h b (List.mem_cons_of_mem _ hb) hreg)
      by_cases hd : e.isDir
      · exact ⟨l, by unfold legacyFilterTFFiles; rw [if_pos hd, hl]⟩
      · obtain ⟨bb, hbb⟩ :=
          legacyIsTF_ok_of_dot e.name (h e (List.mem_cons_self e rest) (by simpa using hd))
        cases bb
        · exact ⟨l, by unfold legacyFilterTFFiles; rw [if_neg hd, hbb, hl]⟩
        · exact ⟨e.name :: l, by unfold legacyFilterTFFiles; rw [if_neg hd, hbb, hl]; rfl⟩

theorem claim_C10_witness :
    (∃ msg, legacyFilterTFFiles [⟨"LICENSE".toList, false⟩] = Except.error msg) ∧
      ∃ l, legacyFilterTFFiles [⟨"main.tf".toList, false⟩, ⟨"sub.dir".toList, true⟩] =
        Except.ok l :=
  ⟨claim_C10.1 [⟨"LICENSE".toList, false⟩] ⟨⟨"LICENSE".toList, false⟩, by decide, by decide⟩,
   claim_C10.2 [⟨"main.tf".toList, false⟩, ⟨"sub.dir".toList, true⟩] (by decide)⟩

/-! ## Claim C6: the variable loaders -/

theorem getTFVariables_step_malformed (vars : List (LC × LC)) (line : LC)
    (h : malformedVarLine line) :
    (match splitOnChar '=' line with
      | key :: value :: _ =>
        if key = [] ∨ value = [] then vars
        else setVar vars (trimWs key) (trimWs (value.filter (fun c => c ≠ '"')))
      | _ => vars) = vars := by
  rcases hs : splitOnChar '=' line with _ | ⟨k, tail⟩
  · rfl
  · cases tail with
    | nil => rfl
    | cons v rest =>
      rcases h with h | h | h
      · rw [hs] at h
        simp only [List.length_cons] at h
        exact absurd h (by omega)
      · rw [hs] at h
        simp only [List.getD_cons_zero] at h
        simp [h]
      · rw [hs] at h
        simp only [List.getD_cons_succ, List.getD_cons_zero] at h
        simp [h]

/-- C6 (counterexample): the legacy terraform.js variable loader *raises* on a
perfectly ordinary file that ends with a newline — the trailing empty line has
no `'='`, so `values[1]` is `undefined` and `.replace` throws a `TypeError`. -/
theorem claim_C6_counterexample :
    getTFVariablesLegacy (some "key = \"value\"\n".toList) =
      Except.error ("TypeError: values[1] is undefined".toList) := by rfl

/-- C6 (amended): the routes.js variable loader never raises — a missing file
yields the empty map, and a file all of whose lines are malformed (no `'='`,
or empty key/value) also yields the empty map, recommendation application
proceeding with no substitutions; the legacy terraform.js loader still yields
the empty map for a missing file but raises a `TypeError` on any line without
`'='` (including the empty line after a trailing newline). -/
theorem claim_C6_amended :
    getTFVariables none = [] ∧
      (∀ contents : LC,
        (∀ line ∈ splitLines contents, malformedVarLine line) →
        getTFVariables (some contents) = []) ∧
      getTFVariablesLegacy none = Except.ok [] := by
  refine ⟨rfl, ?_, rfl⟩
  intro contents h
  show (splitLines contents).foldl _ [] = []
  have : ∀ (lines : List LC), (∀ line ∈ lines, malformedVarLine line) →
      ∀ vars : List (LC × LC), lines.foldl
        (fun vars line =>
          match splitOnChar '=' line with
          | key :: value :: _ =>
            if key = [] ∨ value = [] then vars
            else setVar vars (trimWs key) (trimWs (value.filter (fun c => c ≠ '"')))
          | _ => vars) vars = vars := by
    intro lines hlines
    induction lines with
    | nil => intro vars; rfl
    | cons l rest ih =>
      intro vars
      rw [List.foldl_cons, getTFVariables_step_malformed vars l (hlines l (by simp))]
      exact ih (fun x hx => hlines x (List.mem_cons_of_mem _ hx)) vars
  exact this (splitLines contents) h []

theorem claim_C6_witness :
    getTFVariables (some "no assignment here\n\n".toList) = [] :=
  claim_C6_amended.2.1 "no assignment here\n\n".toList (by decide)

/-! ## Claim C5: the VM state matcher -/

theorem mem_vmMatchesForInstance (rname : LC) (inst : StateInstance)
    (l : List VMRecommendation) (mr : VMMatchedResource) :
    mr ∈ vmMatchesForInstance rname inst l ↔
      ∃ w ∈ l, w.instanceID.drop instanceIdPrefix.length = inst.attributes.id ∧
        mr = ⟨w, rname⟩ := by
  induction l with
  | nil => simp [vmMatchesForInstance]
  | cons w rest ih =>
    unfold vmMatchesForInstance
    by_cases h : w.instanceID.drop instanceIdPrefix.length = inst.attributes.id
    · rw [if_pos h]
      constructor
      · intro hm
        rcases List.mem_cons.mp hm with hm' | hm'
        · exact ⟨w, by simp, h, hm'⟩
        · obtain ⟨x, hx, hx2, hx3⟩ := ih.mp hm'
          exact ⟨x, List.mem_cons_of_mem _ hx, hx2, hx3⟩
      · rintro ⟨x, hx, hx2, hx3⟩
        rcases List.mem_cons.mp hx with hx' | hx'
        · subst hx'
          exact hx3 ▸ List.mem_cons_self _ _
        · exact List.mem_cons_of_mem _ (ih.mpr ⟨x, hx', hx2, hx3⟩)
    · rw [if_neg h]
      rw [ih]
      constructor
      · rintro ⟨x, hx, hx2, hx3⟩
        exact ⟨x, List.mem_cons_of_mem _ hx, hx2, hx3⟩
      · rintro ⟨x, hx, hx2, hx3⟩
        rcases List.mem_cons.mp hx with hx' | hx'
        · subst hx'
          exact absurd hx2 h
        · exact ⟨x, hx', hx2, hx3⟩

theorem countP_vmMatchesForInstance (rname : LC) (inst : StateInstance)
    (vm : VMRecommendation) (l : List VMRecommendation) :
    (vmMatchesForInstance rname inst l).countP (fun mr => mr.vm == vm) =
      if vm.instanceID.drop instanceIdPrefix.length = inst.attributes.id then
        l.count vm
      else 0 := by
  induction l with
  | nil => simp [vmMatchesForInstance]
  | cons w rest ih =>
    unfold vmMatchesForInstance
    by_cases hw : w.instanceID.drop instanceIdPrefix.length = inst.attributes.id
    · rw [if_pos hw, List.countP_cons, ih]
      by_cases hvm : vm.instanceID.drop instanceIdPrefix.length = inst.attributes.id
      · rw [if_pos hvm, if_pos hvm, List.count_cons]
      · rw [if_neg hvm, if_neg hvm]
        have hne : w ≠ vm := fun he => hvm (he ▸ hw)
        have hb : ((VMMatchedResource.mk w rname).vm == vm) = false := by
          simpa using hne
        rw [hb]
        simp
    · rw [if_neg hw, ih]
      by_cases hvm : vm.instanceID.drop instanceIdPrefix.length = inst.attributes.id
      · rw [if_pos hvm, if_pos hvm, List.count_cons]
        have hne : (w == vm) = false := by
          have hw' : w ≠ vm := fun he => hw (by rw [he]; exact hvm)
          simpa using hw'
        rw [hne]
        simp
      · rw [if_neg hvm, if_neg hvm]

/-- C5 (counterexample): with *duplicate matching declarations* in the state —
two compute-instance resources `a` and `b` whose instances share the same
`id` — a single recommendation is paired with *both*: the matcher pushes one
entry per matching (resource, instance) pair, with no first-match-wins rule. -/
theorem claim_C5_counterexample :
    getVMResourcesByIdFromState
        ⟨[⟨"google_compute_instance".toList, "a".toList,
            [⟨{ id := "projects/p/zones/z/instances/i".toList }⟩]⟩,
          ⟨"google_compute_instance".toList, "b".toList,
            [⟨{ id := "projects/p/zones/z/instances/i".toList }⟩]⟩]⟩
        [⟨"//compute.googleapis.com/projects/p/zones/z/instances/i".toList,
          "n1-standard-2".toList, "r1".toList, "e1".toList⟩] =
      [⟨⟨"//compute.googleapis.com/projects/p/zones/z/instances/i".toList,
          "n1-standard-2".toList, "r1".toList, "e1".toList⟩, "a".toList⟩,
       ⟨⟨"//compute.googleapis.com/projects/p/zones/z/instances/i".toList,
          "n1-standard-2".toList, "r1".toList, "e1".toList⟩, "b".toList⟩] := by decide

/-- C5 (amended): the matcher pairs a recommendation with one output entry per
matching (compute-instance resource, instance) pair — so a recommendation
occurring once in the input appears exactly as many times as it has matching
pairs (not "at most once"), and appears zero times exactly when its stripped
instance identifier matches no instance attribute. -/
theorem claim_C5_amended (state : TFState) (vmList : List VMRecommendation) :
    (∀ mr : VMMatchedResource,
        mr ∈ getVMResourcesByIdFromState state vmList ↔
          ∃ r ∈ state.resources, r.type = "google_compute_instance".toList ∧
            ∃ inst ∈ r.instances, mr.vm ∈ vmList ∧
              mr.vm.instanceID.drop instanceIdPrefix.length = inst.attributes.id ∧
              mr.tfResourceName = r.name) ∧
    (∀ vm : VMRecommendation, vmList.count vm = 1 →
        (getVMResourcesByIdFromState state vmList).countP (fun mr => mr.vm == vm) =
          ((state.resources.filter
              (fun r => r.type == "google_compute_instance".toList)).map
            (fun r => r.instances.countP (fun inst =>
              vm.instanceID.drop instanceIdPrefix.length == inst.attributes.id))).sum) := by
  constructor
  · intro mr
    unfold getVMResourcesByIdFromState
    rw [List.mem_flatMap]
    constructor
    · rintro ⟨r, hr, hmr⟩
      unfold vmMatchesForResource at hmr
      by_cases ht : r.type = "google_compute_instance".toList
      · rw [if_pos ht, List.mem_flatMap] at hmr
        obtain ⟨inst, hinst, hmem⟩ := hmr
        obtain ⟨w, hw, hwid, hweq⟩ := (mem_vmMatchesForInstance _ _ _ _).mp hmem
        subst hweq
        exact ⟨r, hr, ht, inst, hinst, hw, hwid, rfl⟩
      · rw [if_neg ht] at hmr
        simp at hmr
    · rintro ⟨r, hr, ht, inst, hinst, hvm, hid, hname⟩
      refine ⟨r, hr, ?_⟩
      unfold vmMatchesForResource
      rw [if_pos ht, List.mem_flatMap]
      refine ⟨inst, hinst, (mem_vmMatchesForInstance _ _ _ _).mpr ⟨mr.vm, hvm, hid, ?_⟩⟩
      rw [← hname]
  · intro vm hcount
    unfold getVMResourcesByIdFromState
    induction state.resources with
    | nil => simp
    | cons r rest ih =>
      rw [List.flatMap_cons, List.countP_append, List.filter_cons, ih]
      by_cases ht : r.type = "google_compute_instance".toList
      · rw [if_pos (by simpa using ht)]
        unfold vmMatchesForResource
        rw [if_pos ht, List.map_cons, List.sum_cons]
        congr 1
        induction r.instances with
        | nil => simp
        | cons inst irest iih =>
          rw [List.flatMap_cons, List.countP_append, List.countP_cons, iih,
            countP_vmMatchesForInstance]
          by_cases hm : vm.instanceID.drop instanceIdPrefix.length = inst.attributes.id
          · rw [if_pos hm, hcount]
            have : (vm.instanceID.drop instanceIdPrefix.length ==
                inst.attributes.id) = true := by simpa using hm
            rw [this]
            simp
            omega
          · rw [if_neg hm]
            have : (vm.instanceID.drop instanceIdPrefix.length ==
                inst.attributes.id) = false := by simpa using hm
            rw [this]
            simp
      · rw [if_neg (by simpa using ht)]
        unfold vmMatchesForResource
        rw [if_neg ht]
        simp

theorem claim_C5_witness :
    List.countP
        (fun mr => mr.vm ==
          (⟨"//compute.googleapis.com/x".toList, "s".toList, "r1".toList,
            "e1".toList⟩ : VMRecommendation))
        (getVMResourcesByIdFromState
          ⟨[⟨"google_compute_instance".toList, "a".toList, [⟨{ id := "x".toList }⟩]⟩]⟩
          [⟨"//compute.googleapis.com/x".toList, "s".toList, "r1".toList, "e1".toList⟩]) =
      1 := by
  have h := (claim_C5_amended
    ⟨[⟨"google_compute_instance".toList, "a".toList, [⟨{ id := "x".toList }⟩]⟩]⟩
    [⟨"//compute.googleapis.com/x".toList, "s".toList, "r1".toList, "e1".toList⟩]).2
    ⟨"//compute.googleapis.com/x".toList, "s".toList, "r1".toList, "e1".toList⟩
    (by decide)
  rw [h]
  decide

/-! ## Claim C1: the VM end-to-end example -/

/-- C1: for the spec's VM end-to-end example — a state snapshot with one
`google_compute_instance` named `default` whose instance identifier is
`projects/p/zones/z/instances/i`, the single recommendation
`{instanceID: "//compute.googleapis.com/projects/p/zones/z/instances/i",
size: "n1-standard-2", recommendationID: "r1", recommendationETag: "e1"}`,
and a manifest declaring that resource with a `machine_type = "g1-small"`
line — the VM matcher followed by the VM patch coordinator produces a file
whose `machine_type` line reads `"n1-standard-2"` and returns exactly
`[{id: "r1", etag: "e1"}]`. -/
theorem claim_C1 :
    findAndModifyInstances
        [⟨"/repo/x/main.tf".toList,
          ("resource \"google_compute_instance\" \"default\" \x7b\n" ++
           "  machine_type = \"g1-small\"\n" ++
           "\x7d\n").toList⟩]
        none
        (getVMResourcesByIdFromState
          ⟨[⟨"google_compute_instance".toList, "default".toList,
              [⟨{ id := "projects/p/zones/z/instances/i".toList }⟩]⟩]⟩
          [⟨"//compute.googleapis.com/projects/p/zones/z/instances/i".toList,
            "n1-standard-2".toList, "r1".toList, "e1".toList⟩]) =
      ([⟨"/repo/x/main.tf".toList,
         ("resource \"google_compute_instance\" \"default\" \x7b\n" ++
          "  machine_type = \"n1-standard-2\"\n" ++
          "\x7d\n").toList⟩],
       [⟨"r1".toList, "e1".toList⟩]) := by decide

/-! ## Claim C7: the write-back step -/

theorem idxOf_of_isPrefixOf (pat s : LC) (h : pat.isPrefixOf s) : idxOf pat s = 0 := by
  cases s with
  | nil => rfl
  | cons c rest =>
    unfold idxOf
    rw [if_pos h]

theorem replaceFirst_prefix (pat repl t : LC) :
    replaceFirst pat repl (pat ++ t) = repl ++ t := by
  unfold replaceFirst
  have hpre : pat.isPrefixOf (pat ++ t) :=
    List.isPrefixOf_iff_prefix.mpr (List.prefix_append pat t)
  rw [if_pos ((List.prefix_append pat t).isInfix), idxOf_of_isPrefixOf pat _ hpre]
  simp

theorem map_path_replaceVariableValuesInTFFiles (vars : List (LC × LC)) (files : List TFFile) :
    (replaceVariableValuesInTFFiles vars files).map TFFile.path = files.map TFFile.path := by
  unfold replaceVariableValuesInTFFiles replaceInContents
  rw [List.map_map]
  rfl

theorem vmApplyFiles_paths (r : VMMatchedResource) (tfs ogs : List TFFile)
    (h : tfs.map TFFile.path = ogs.map TFFile.path) :
    (vmApplyFiles r tfs ogs).1.map TFFile.path = ogs.map TFFile.path := by
  induction tfs generalizing ogs with
  | nil =>
    cases ogs with
    | nil => rfl
    | cons og ogs' => simp at h
  | cons tf tfs' ih =>
    cases ogs with
    | nil => simp at h
    | cons og ogs' =>
      simp only [List.map_cons, List.cons.injEq] at h
      unfold vmApplyFiles
      cases vmProcessFile r tf.contents og.contents with
      | none => simpa using ih ogs' h.2
      | some c =>
        simp only [List.map_cons]
        exact congrArg₂ _ h.1 (ih ogs' h.2)

theorem vmApplyAll_paths (tfFiles : List TFFile) (ogs : List TFFile)
    (rs : List VMMatchedResource)
    (h : tfFiles.map TFFile.path = ogs.map TFFile.path) :
    (vmApplyAll tfFiles ogs rs).1.map TFFile.path = ogs.map TFFile.path := by
  induction rs generalizing ogs with
  | nil => rfl
  | cons r rs' ih =>
    unfold vmApplyAll
    show (vmApplyAll tfFiles (vmApplyFiles r tfFiles ogs).1 rs').1.map TFFile.path =
      ogs.map TFFile.path
    have hstep := vmApplyFiles_paths r tfFiles ogs h
    have := ih (vmApplyFiles r tfFiles ogs).1 (by rw [hstep, h])
    rw [this, hstep]

theorem findAndModifyInstances_paths (files : List TFFile) (tfvars : Option LC)
    (resources : List VMMatchedResource) :
    (findAndModifyInstances files tfvars resources).1.map TFFile.path =
      files.map TFFile.path := by
  unfold findAndModifyInstances
  exact vmApplyAll_paths _ _ _ (map_path_replaceVariableValuesInTFFiles _ _)

/-- C7 (counterexample): after a VM run over two manifest files in which only
the first file matches, the write set still contains the *second* file — whose
contents are byte-for-byte the input — so a file whose content did not change
is written all the same (the source writes every loaded file unconditionally). -/
theorem claim_C7_counterexample :
    writeSet "/repo/x".toList none
        (findAndModifyInstances
          [⟨"/repo/x/a.tf".toList,
            ("resource \"google_compute_instance\" \"default\" \x7b\n" ++
             "  machine_type = \"g1-small\"\n" ++
             "\x7d\n").toList⟩,
           ⟨"/repo/x/b.tf".toList, "# no declarations here\n".toList⟩]
          none
          [⟨⟨"//compute.googleapis.com/projects/p/zones/z/instances/i".toList,
             "n1-standard-2".toList, "r1".toList, "e1".toList⟩, "default".toList⟩]).1 =
      [⟨"/repo/x/a.tf".toList,
        ("resource \"google_compute_instance\" \"default\" \x7b\n" ++
         "  machine_type = \"n1-standard-2\"\n" ++
         "\x7d\n").toList⟩,
       ⟨"/repo/x/b.tf".toList, "# no declarations here\n".toList⟩] := by decide

/-- C7 (amended): after a VM run, *every* loaded manifest file — changed or
not — is written to the destination directory (defaulting to the source
manifest directory), under its original relative filename; the written
contents are the final (possibly edited) contents, and file paths are
preserved throughout the run. -/
theorem claim_C7_amended (files : List TFFile) (tfvars : Option LC)
    (resources : List VMMatchedResource) (repoPath : LC) (destPath : Option LC)
    (h : ∀ f ∈ files, ∃ t, f.path = repoPath ++ t) :
    (writeSet repoPath destPath (findAndModifyInstances files tfvars resources).1).length =
        files.length ∧
      ∀ k, k < files.length →
        ∃ t, (files.getD k ⟨[], []⟩).path = repoPath ++ t ∧
          ((writeSet repoPath destPath
              (findAndModifyInstances files tfvars resources).1).getD k ⟨[], []⟩).path =
            (destPath.getD repoPath) ++ t ∧
          ((writeSet repoPath destPath
              (findAndModifyInstances files tfvars resources).1).getD k ⟨[], []⟩).contents =
            (((findAndModifyInstances files tfvars resources).1).getD k ⟨[], []⟩).contents := by
  have hlen : (findAndModifyInstances files tfvars resources).1.length = files.length := by
    have := congrArg List.length (findAndModifyInstances_paths files tfvars resources)
    simpa using this
  constructor
  · unfold writeSet
    simpa using hlen
  · intro k hk
    have hkf : k < (findAndModifyInstances files tfvars resources).1.length := by omega
    have hpath : ((findAndModifyInstances files tfvars resources).1.getD k ⟨[], []⟩).path =
        (files.getD k ⟨[], []⟩).path := by
      have hmap := findAndModifyInstances_paths files tfvars resources
      have h1 : ((findAndModifyInstances files tfvars resources).1.map TFFile.path).getD k [] =
          (files.map TFFile.path).getD k [] := by rw [hmap]
      rw [List.getD_eq_getElem?_getD, List.getD_eq_getElem?_getD] at h1
      rw [List.getElem?_map, List.getElem?_map] at h1
      rw [List.getD_eq_getElem?_getD, List.getD_eq_getElem?_getD,
        List.getElem?_eq_getElem hkf, List.getElem?_eq_getElem hk]
      rw [List.getElem?_eq_getElem hkf, List.getElem?_eq_getElem hk] at h1
      simpa using h1
    obtain ⟨t, ht⟩ := h (files.getD k ⟨[], []⟩) (by
      rw [List.getD_eq_getElem?_getD, List.getElem?_eq_getElem hk]
      exact List.getElem_mem _)
    refine ⟨t, ht, ?_, ?_⟩
    · unfold writeSet
      rw [List.getD_eq_getElem?_getD, List.getElem?_map,
        List.getElem?_eq_getElem hkf]
      simp only [Option.map_some', Option.getD_some]
      rw [show ((findAndModifyInstances files tfvars resources).1[k]).path =
          repoPath ++ t from by
        rw [← List.getD_eq_getElem (d := (⟨[], []⟩ : TFFile)) _ hkf] at *
        rw [hpath, ht]]
      exact replaceFirst_prefix repoPath _ t
    · unfold writeSet
      rw [List.getD_eq_getElem?_getD, List.getElem?_map, List.getElem?_eq_getElem hkf]
      simp only [Option.map_some', Option.getD_some]
      rw [List.getD_eq_getElem?_getD, List.getElem?_eq_getElem hkf]
      rfl

theorem claim_C7_witness :
    (writeSet "/repo/x".toList none
        (findAndModifyInstances [⟨"/repo/x/b.tf".toList, "# nothing\n".toList⟩]
          none []).1).length = 1 ∧
      ∃ t, (([⟨"/repo/x/b.tf".toList, "# nothing\n".toList⟩].getD 0
            (⟨[], []⟩ : TFFile)).path = "/repo/x".toList ++ t) ∧
        ((writeSet "/repo/x".toList none
            (findAndModifyInstances [⟨"/repo/x/b.tf".toList, "# nothing\n".toList⟩]
              none []).1).getD 0 ⟨[], []⟩).path = ((none : Option LC).getD "/repo/x".toList) ++ t ∧
        ((writeSet "/repo/x".toList none
            (findAndModifyInstances [⟨"/repo/x/b.tf".toList, "# nothing\n".toList⟩]
              none []).1).getD 0 ⟨[], []⟩).contents =
          (((findAndModifyInstances [⟨"/repo/x/b.tf".toList, "# nothing\n".toList⟩]
              none []).1).getD 0 ⟨[], []⟩).contents :=
  ⟨(claim_C7_amended [⟨"/repo/x/b.tf".toList, "# nothing\n".toList⟩] none []
      "/repo/x".toList none
      (by intro f hf; exact ⟨"/b.tf".toList, by
        rcases List.mem_singleton.mp hf with rfl
        decide⟩)).1,
   (claim_C7_amended [⟨"/repo/x/b.tf".toList, "# nothing\n".toList⟩] none []
      "/repo/x".toList none
      (by intro f hf; exact ⟨"/b.tf".toList, by
        rcases List.mem_singleton.mp hf with rfl
        decide⟩)).2 0 (by decide)⟩

/-! ## Claim C4: the claimed-recommendation list -/

theorem vmProcessFile_eq_none_iff (r : VMMatchedResource) (res og : LC) :
    vmProcessFile r res og = none ↔ searchToks (vmDeclToks r.tfResourceName) res = none := by
  unfold vmProcessFile
  cases h : searchToks (vmDeclToks r.tfResourceName) res with
  | none => simp
  | some m => cases m; simp

theorem vmApplyFiles_claims (r : VMMatchedResource) (tfs ogs : List TFFile)
    (h : tfs.length = ogs.length) :
    (vmApplyFiles r tfs ogs).2 =
      (tfs.filter
        (fun tf => (searchToks (vmDeclToks r.tfResourceName) tf.contents).isSome)).map
        (fun _ => vmClaimOf r) := by
  induction tfs generalizing ogs with
  | nil => rfl
  | cons tf tfs' ih =>
    cases ogs with
    | nil => simp at h
    | cons og ogs' =>
      unfold vmApplyFiles
      rw [List.filter_cons]
      cases hp : vmProcessFile r tf.contents og.contents with
      | none =>
        have hs : searchToks (vmDeclToks r.tfResourceName) tf.contents = none :=
          (vmProcessFile_eq_none_iff r tf.contents og.contents).mp hp
        rw [if_neg (by simp [hs])]
        exact ih ogs' (by simpa using h)
      | some c =>
        have hs : searchToks (vmDeclToks r.tfResourceName) tf.contents ≠ none := by
          intro hn
          rw [(vmProcessFile_eq_none_iff r tf.contents og.contents).mpr hn] at hp
          cases hp
        rw [if_pos (by simpa [Option.isSome_iff_ne_none] using hs), List.map_cons]
        exact congrArg _ (ih ogs' (by simpa using h))

theorem vmApplyFiles_length (r : VMMatchedResource) (tfs ogs : List TFFile) :
    (vmApplyFiles r tfs ogs).1.length = min tfs.length ogs.length := by
  induction tfs generalizing ogs with
  | nil => simp [vmApplyFiles]
  | cons tf tfs' ih =>
    cases ogs with
    | nil => simp [vmApplyFiles]
    | cons og ogs' =>
      unfold vmApplyFiles
      cases hp : vmProcessFile r tf.contents og.contents with
      | none =>
        simp only [List.length_cons, ih ogs']
        omega
      | some c =>
        simp only [List.length_cons, ih ogs']
        omega

theorem vmApplyAll_claims (tfFiles ogs : List TFFile) (rs : List VMMatchedResource)
    (h : tfFiles.length = ogs.length) :
    (vmApplyAll tfFiles ogs rs).2 =
      rs.flatMap (fun r =>
        (tfFiles.filter
          (fun tf => (searchToks (vmDeclToks r.tfResourceName) tf.contents).isSome)).map
          (fun _ => vmClaimOf r)) := by
  induction rs generalizing ogs with
  | nil => rfl
  | cons r rs' ih =>
    unfold vmApplyAll
    show (vmApplyFiles r tfFiles ogs).2 ++
        (vmApplyAll tfFiles (vmApplyFiles r tfFiles ogs).1 rs').2 = _
    rw [List.flatMap_cons]
    have hlen : tfFiles.length = (vmApplyFiles r tfFiles ogs).1.length := by
      rw [vmApplyFiles_length]
      omega
    rw [ih (vmApplyFiles r tfFiles ogs).1 hlen, vmApplyFiles_claims r tfFiles ogs h]

/-- The VM claims list, characterized: one claim per (matched resource,
matching resolved file) pair, in resource-major file-minor order. -/
theorem findAndModifyInstances_claims (files : List TFFile) (tfvars : Option LC)
    (resources : List VMMatchedResource) :
    (findAndModifyInstances files tfvars resources).2 =
      resources.flatMap (fun r =>
        ((replaceVariableValuesInTFFiles (getTFVariables tfvars) files).filter
          (fun tf => (searchToks (vmDeclToks r.tfResourceName) tf.contents).isSome)).map
          (fun _ => vmClaimOf r)) := by
  unfold findAndModifyInstances
  apply vmApplyAll_claims
  unfold replaceVariableValuesInTFFiles
  simp

theorem iamProcessFile_ok_none_iff (r : IAMMatchedResource) (res og : LC) :
    iamProcessFile r res og = Except.ok none ↔ searchToks (iamDeclToks r) res = none := by
  unfold iamProcessFile
  cases h : searchToks (iamDeclToks r) res with
  | none => simp
  | some m =>
    obtain ⟨i, lens⟩ := m
    cases hj : jsonParseStringArray (sliceLens res i lens 24 29) with
    | none => simp [hj]
    | some members =>
      cases hm : members.filter (fun m => m ≠ r.member) with
      | cons x xs =>
        simp only [ne_eq, decide_not] at hm
        simp [hj, hm]
      | nil =>
        simp only [ne_eq, decide_not] at hm
        simp [hj, hm]

theorem iamApplyFiles_ok (r : IAMMatchedResource) (tfs ogs : List TFFile)
    (fs : List TFFile) (cs : List ClaimedRecommendation)
    (hlen : tfs.length = ogs.length)
    (h : iamApplyFiles r tfs ogs = Except.ok (fs, cs)) :
    cs = (tfs.filter (fun tf => (searchToks (iamDeclToks r) tf.contents).isSome)).map
        (fun _ => iamClaimOf r) ∧
      fs.length = ogs.length := by
  induction tfs generalizing ogs fs cs with
  | nil =>
    cases ogs with
    | nil =>
      cases h
      exact ⟨rfl, by simp⟩
    | cons og ogs' => simp at hlen
  | cons tf tfs' ih =>
    cases ogs with
    | nil => simp at hlen
    | cons og ogs' =>
      have hlen' : tfs'.length = ogs'.length := by simpa using hlen
      unfold iamApplyFiles at h
      rw [List.filter_cons]
      cases hp : iamProcessFile r tf.contents og.contents with
      | error e => rw [hp] at h; cases h
      | ok o =>
        rw [hp] at h
        cases o with
        | none =>
          have hs : searchToks (iamDeclToks r) tf.contents = none :=
            (iamProcessFile_ok_none_iff r tf.contents og.contents).mp hp
          cases hrest : iamApplyFiles r tfs' ogs' with
          | error e => rw [hrest] at h; cases h
          | ok rest =>
            rw [hrest] at h
            cases h
            have := ih ogs' rest.1 rest.2 hlen' hrest
            rw [if_neg (by simp [hs])]
            refine ⟨this.1, ?_⟩
            simp only [List.length_cons]
            omega
        | some c =>
          have hs : searchToks (iamDeclToks r) tf.contents ≠ none := by
            intro hn
            rw [(iamProcessFile_ok_none_iff r tf.contents og.contents).mpr hn] at hp
            cases hp
          cases hrest : iamApplyFiles r tfs' ogs' with
          | error e => rw [hrest] at h; cases h
          | ok rest =>
            rw [hrest] at h
            cases h
            have := ih ogs' rest.1 rest.2 hlen' hrest
            rw [if_pos (by simpa [Option.isSome_iff_ne_none] using hs), List.map_cons]
            refine ⟨congrArg _ this.1, ?_⟩
            simp only [List.length_cons]
            omega

theorem iamApplyAll_ok (tfFiles ogs : List TFFile) (rs : List IAMMatchedResource)
    (fs : List TFFile) (cs : List ClaimedRecommendation)
    (hlen : tfFiles.length = ogs.length)
    (h : iamApplyAll tfFiles ogs rs = Except.ok (fs, cs)) :
    cs = rs.flatMap (fun r =>
      (tfFiles.filter (fun tf => (searchToks (iamDeclToks r) tf.contents).isSome)).map
        (fun _ => iamClaimOf r)) := by
  induction rs generalizing ogs fs cs with
  | nil =>
    cases h
    rfl
  | cons r rs' ih =>
    unfold iamApplyAll at h
    rw [List.flatMap_cons]
    cases hstep : iamApplyFiles r tfFiles ogs with
    | error e =>
      rw [hstep] at h
      cases h
    | ok step =>
      rw [hstep] at h
      have h' : (match iamApplyAll tfFiles step.1 rs' with
          | Except.error e => Except.error e
          | Except.ok rest => Except.ok (rest.1, step.2 ++ rest.2)) =
          Except.ok (fs, cs) := h
      cases hrest : iamApplyAll tfFiles step.1 rs' with
      | error e =>
        rw [hrest] at h'
        cases h'
      | ok rest =>
        rw [hrest] at h'
        cases h'
        have hstepc := iamApplyFiles_ok r tfFiles ogs step.1 step.2 hlen hstep
        have hlen2 : tfFiles.length = step.1.length := by
          rw [hstepc.2]
          omega
        rw [ih step.1 rest.1 rest.2 hlen2 hrest, hstepc.1]

/-- C4 (counterexample): when a matched resource's declaration pattern matches
in *two* manifest files, its recommendation is claimed twice — one
`{id, etag}` entry per matching file — contradicting "appears at most once". -/
theorem claim_C4_counterexample :
    (findAndModifyInstances
        [⟨"/repo/x/a.tf".toList,
          ("resource \"google_compute_instance\" \"default\" \x7b\n" ++
           "  machine_type = \"g1-small\"\n" ++
           "\x7d\n").toList⟩,
         ⟨"/repo/x/b.tf".toList,
          ("resource \"google_compute_instance\" \"default\" \x7b\n" ++
           "  machine_type = \"g1-small\"\n" ++
           "\x7d\n").toList⟩]
        none
        [⟨⟨"//compute.googleapis.com/projects/p/zones/z/instances/i".toList,
           "n1-standard-2".toList, "r1".toList, "e1".toList⟩, "default".toList⟩]).2 =
      [⟨"r1".toList, "e1".toList⟩, ⟨"r1".toList, "e1".toList⟩] := by decide

/-- C4 (amended): every claimed `{id, etag}` pair originates from an input
matched resource (subset, for both coordinators), and the claims list is
exactly one entry per (matched resource, matching resolved file) pair — so a
multi-step surgery still claims once, but a recommendation whose declaration
pattern matches in several manifest files is claimed once per matching file. -/
theorem claim_C4_amended (files : List TFFile) (tfvars : Option LC)
    (vrs : List VMMatchedResource) (irs : List IAMMatchedResource) :
    (∀ c ∈ (findAndModifyInstances files tfvars vrs).2, ∃ r ∈ vrs, c = vmClaimOf r) ∧
    (∀ fs cs, findAndModifyIAMRoleBindings files tfvars irs = Except.ok (fs, cs) →
      ∀ c ∈ cs, ∃ r ∈ irs, c = iamClaimOf r) ∧
    ((findAndModifyInstances files tfvars vrs).2 =
      vrs.flatMap (fun r =>
        ((replaceVariableValuesInTFFiles (getTFVariables tfvars) files).filter
          (fun tf => (searchToks (vmDeclToks r.tfResourceName) tf.contents).isSome)).map
          (fun _ => vmClaimOf r))) ∧
    (∀ fs cs, findAndModifyIAMRoleBindings files tfvars irs = Except.ok (fs, cs) →
      cs = irs.flatMap (fun r =>
        ((replaceServiceAccountValues
            (replaceVariableValuesInTFFiles (getTFVariables tfvars) files)).filter
          (fun tf => (searchToks (iamDeclToks r) tf.contents).isSome)).map
          (fun _ => iamClaimOf r))) := by
  have hiam : ∀ fs cs, findAndModifyIAMRoleBindings files tfvars irs = Except.ok (fs, cs) →
      cs = irs.flatMap (fun r =>
        ((replaceServiceAccountValues
            (replaceVariableValuesInTFFiles (getTFVariables tfvars) files)).filter
          (fun tf => (searchToks (iamDeclToks r) tf.contents).isSome)).map
          (fun _ => iamClaimOf r)) := by
    intro fs cs h
    unfold findAndModifyIAMRoleBindings at h
    apply iamApplyAll_ok _ _ _ _ _ _ h
    unfold replaceServiceAccountValues
    by_cases hsa : scanServiceAccounts (replaceVariableValuesInTFFiles
        (getTFVariables tfvars) files) = []
    · rw [if_pos hsa]
      unfold replaceVariableValuesInTFFiles
      simp
    · rw [if_neg hsa]
      unfold replaceVariableValuesInTFFiles
      simp
  refine ⟨?_, ?_, findAndModifyInstances_claims files tfvars vrs, hiam⟩
  · intro c hc
    rw [findAndModifyInstances_claims] at hc
    obtain ⟨r, hr, hcr⟩ := List.mem_flatMap.mp hc
    obtain ⟨_, _, hceq⟩ := List.mem_map.mp hcr
    exact ⟨r, hr, hceq.symm⟩
  · intro fs cs h c hc
    rw [hiam fs cs h] at hc
    obtain ⟨r, hr, hcr⟩ := List.mem_flatMap.mp hc
    obtain ⟨_, _, hceq⟩ := List.mem_map.mp hcr
    exact ⟨r, hr, hceq.symm⟩

/-! ## Soundness and completeness of the token matcher -/

theorem mem_candidates_iff (lo hi k : Nat) (g : Bool) :
    k ∈ candidates lo hi g ↔ lo ≤ k ∧ k ≤ hi := by
  unfold candidates
  constructor
  · intro h
    have h' : k ∈ (List.range (hi + 1 - lo)).map (fun j => lo + j) := by
      by_cases hg : g
      · simpa [hg] using h
      · simpa [hg] using h
    obtain ⟨j, hj, hjk⟩ := List.mem_map.mp h'
    rw [List.mem_range] at hj
    omega
  · intro ⟨h1, h2⟩
    have h' : k ∈ (List.range (hi + 1 - lo)).map (fun j => lo + j) := by
      refine List.mem_map.mpr ⟨k - lo, ?_, by omega⟩
      rw [List.mem_range]
      omega
    by_cases hg : g
    · simpa [hg] using h'
    · simpa [hg] using h'

theorem firstSome_map_eq_some {α β : Type} (l : List α) (f : α → Option β) (y : β)
    (h : firstSome (l.map f) = some y) : ∃ x ∈ l, f x = some y := by
  induction l with
  | nil => cases h
  | cons x xs ih =>
    rw [List.map_cons] at h
    cases hf : f x with
    | some a =>
      rw [hf] at h
      cases h
      exact ⟨x, by simp, hf⟩
    | none =>
      rw [hf] at h
      obtain ⟨z, hz, hzf⟩ := ih h
      exact ⟨z, List.mem_cons_of_mem _ hz, hzf⟩

theorem firstSome_map_isSome {α β : Type} (l : List α) (f : α → Option β) (x : α)
    (hx : x ∈ l) (h : (f x).isSome) : (firstSome (l.map f)).isSome := by
  induction l with
  | nil => cases hx
  | cons y ys ih =>
    rw [List.map_cons]
    cases hf : f y with
    | some a => simp [firstSome]
    | none =>
      rcases List.mem_cons.mp hx with hx' | hx'
      · subst hx'
        rw [hf] at h
        cases h
      · simpa [firstSome] using ih hx'

theorem all_take_le_takeWhile (p : Char → Bool) (s : LC) :
    ∀ n, n ≤ s.length → (∀ c ∈ s.take n, p c = true) →
      n ≤ (s.takeWhile p).length := by
  induction s with
  | nil => intro n h _; simpa using h
  | cons c rest ih =>
    intro n hn hall
    cases n with
    | zero => omega
    | succ m =>
      have hc : p c = true := hall c (by simp)
      rw [List.takeWhile_cons, if_pos hc]
      simp only [List.length_cons]
      have := ih m (by simpa using hn)
        (fun d hd => hall d (by rw [List.take_succ_cons]; exact List.mem_cons_of_mem _ hd))
      omega

theorem take_all_of_le_takeWhile (p : Char → Bool) (s : LC) (n : Nat)
    (h : n ≤ (s.takeWhile p).length) : ∀ c ∈ s.take n, p c = true := by
  intro c hc
  have hpre : s.takeWhile p <+: s := List.takeWhile_prefix p
  have heq : s.take n = (s.takeWhile p).take n := by
    obtain ⟨t, ht⟩ := hpre
    conv_lhs => rw [← ht]
    rw [List.take_append_of_le_length h]
  rw [heq] at hc
  exact List.mem_takeWhile_imp (List.mem_of_mem_take hc)

theorem matchToks_consumes :
    ∀ (toks : List Tok) (lens : List Nat) (s : LC),
      matchToks toks s = some lens → Consumes toks lens s := by
  intro toks
  induction toks with
  | nil =>
    intro lens s h
    unfold matchToks at h
    cases h
    trivial
  | cons t ts ih =>
    intro lens s h
    cases t with
    | lit l =>
      unfold matchToks at h
      by_cases hp : l.isPrefixOf s
      · rw [if_pos hp] at h
        cases hm : matchToks ts (s.drop l.length) with
        | none => rw [hm] at h; cases h
        | some ns =>
          rw [hm] at h
          cases h
          exact ⟨rfl, List.isPrefixOf_iff_prefix.mp hp, ih ns _ hm⟩
      · rw [if_neg hp] at h
        cases h
    | many p a g =>
      unfold matchToks at h
      by_cases hr : (s.takeWhile p).length < (if a then 1 else 0)
      · rw [if_pos hr] at h
        cases h
      · rw [if_neg hr] at h
        obtain ⟨k, hk, hkf⟩ := firstSome_map_eq_some _ _ _ h
        obtain ⟨hlo, hhi⟩ := (mem_candidates_iff _ _ _ _).mp hk
        cases hm : matchToks ts (s.drop k) with
        | none => rw [hm] at hkf; cases hkf
        | some ns =>
          rw [hm] at hkf
          cases hkf
          refine ⟨?_, ?_, ?_, ih ns _ hm⟩
          · intro ha
            subst ha
            simpa using hlo
          · calc k ≤ (s.takeWhile p).length := hhi
              _ ≤ s.length := (List.takeWhile_prefix p).length_le
          · exact take_all_of_le_takeWhile p s k hhi

theorem consumes_matchToks_isSome :
    ∀ (toks : List Tok) (lens : List Nat) (s : LC),
      Consumes toks lens s → (matchToks toks s).isSome := by
  intro toks
  induction toks with
  | nil =>
    intro lens s h
    cases lens with
    | nil => simp [matchToks]
    | cons n ns => cases h
  | cons t ts ih =>
    intro lens s h
    cases t with
    | lit l =>
      cases lens with
      | nil => cases h
      | cons n ns =>
        obtain ⟨hn, hpre, hrest⟩ := h
        subst hn
        unfold matchToks
        rw [if_pos (List.isPrefixOf_iff_prefix.mpr hpre)]
        have := ih ns _ hrest
        cases hm : matchToks ts (s.drop l.length) with
        | none => rw [hm] at this; cases this
        | some _ => simp
    | many p a g =>
      cases lens with
      | nil => cases h
      | cons n ns =>
        obtain ⟨ha, hle, hall, hrest⟩ := h
        unfold matchToks
        have hnrun : n ≤ (s.takeWhile p).length := all_take_le_takeWhile p s n hle hall
        have hlo : (if a then 1 else 0) ≤ n := by
          by_cases haa : a
          · rw [if_pos haa]
            exact ha haa
          · rw [if_neg haa]
            omega
        rw [if_neg (by omega)]
        refine firstSome_map_isSome _ _ n ((mem_candidates_iff _ _ _ _).mpr ⟨hlo, hnrun⟩) ?_
        have := ih ns _ hrest
        cases hm : matchToks ts (s.drop n) with
        | none => rw [hm] at this; cases this
        | some _ => simp

theorem consumes_sum_le :
    ∀ (toks : List Tok) (lens : List Nat) (s : LC),
      Consumes toks lens s → lens.sum ≤ s.length := by
  intro toks
  induction toks with
  | nil =>
    intro lens s h
    cases lens with
    | nil => simp
    | cons n ns => cases h
  | cons t ts ih =>
    intro lens s h
    cases t with
    | lit l =>
      cases lens with
      | nil => cases h
      | cons n ns =>
        obtain ⟨hn, hpre, hrest⟩ := h
        have h1 := ih ns _ hrest
        have h2 : l.length ≤ s.length := hpre.length_le
        rw [List.length_drop] at h1
        rw [List.sum_cons]
        omega
    | many p a g =>
      cases lens with
      | nil => cases h
      | cons n ns =>
        obtain ⟨_, hle, _, hrest⟩ := h
        have h1 := ih ns _ hrest
        rw [List.length_drop] at h1
        rw [List.sum_cons]
        omega

theorem consumes_lit_infix :
    ∀ (toks : List Tok) (lens : List Nat) (s : LC),
      Consumes toks lens s → ∀ l, Tok.lit l ∈ toks → l <:+: s.take lens.sum := by
  intro toks
  induction toks with
  | nil =>
    intro lens s _ l hl
    cases hl
  | cons t ts ih =>
    intro lens s h l hl
    cases t with
    | lit l0 =>
      cases lens with
      | nil => cases h
      | cons n ns =>
        obtain ⟨hn, hpre, hrest⟩ := h
        subst hn
        have hsplit : s.take (l0.length + ns.sum) =
            l0 ++ (s.drop l0.length).take ns.sum := by
          rw [List.take_add]
          congr 1
          obtain ⟨t', ht'⟩ := hpre
          rw [← ht', List.take_append_of_le_length (by simp)]
          simp
        rw [List.sum_cons, hsplit]
        rcases List.mem_cons.mp hl with hl' | hl'
        · cases hl'
          exact (List.prefix_append _ _).isInfix
        · exact ((ih ns _ hrest l hl').trans (List.suffix_append _ _).isInfix)
    | many p a g =>
      cases lens with
      | nil => cases h
      | cons n ns =>
        obtain ⟨_, _, _, hrest⟩ := h
        rcases List.mem_cons.mp hl with hl' | hl'
        · cases hl'
        · rw [List.sum_cons, List.take_add]
          exact ((ih ns _ hrest l hl').trans (List.suffix_append _ _).isInfix)

theorem searchAux_sound (toks : List Tok) :
    ∀ (s : LC) (i j : Nat) (lens : List Nat),
      searchAux toks s i = some (j, lens) →
        i ≤ j ∧ matchToks toks (s.drop (j - i)) = some lens := by
  intro s
  induction s with
  | nil =>
    intro i j lens h
    unfold searchAux at h
    cases hm : matchToks toks [] with
    | none => rw [hm] at h; cases h
    | some ns =>
      rw [hm] at h
      cases h
      exact ⟨le_refl _, by simpa using hm⟩
  | cons c rest ih =>
    intro i j lens h
    unfold searchAux at h
    cases hm : matchToks toks (c :: rest) with
    | some ns =>
      rw [hm] at h
      cases h
      exact ⟨le_refl _, by simpa using hm⟩
    | none =>
      rw [hm] at h
      obtain ⟨hij, hmt⟩ := ih (i + 1) j lens h
      refine ⟨by omega, ?_⟩
      have : j - i = (j - (i + 1)) + 1 := by omega
      rw [this, List.drop_succ_cons]
      exact hmt

theorem searchToks_sound (toks : List Tok) (s : LC) (j : Nat) (lens : List Nat)
    (h : searchToks toks s = some (j, lens)) :
    matchToks toks (s.drop j) = some lens := by
  have := searchAux_sound toks s 0 j lens h
  simpa using this.2

theorem searchAux_isSome (toks : List Tok) :
    ∀ (s : LC) (i j : Nat),
      (matchToks toks (s.drop j)).isSome → (searchAux toks s i).isSome := by
  intro s
  induction s with
  | nil =>
    intro i j h
    rw [List.drop_nil] at h
    unfold searchAux
    cases hm : matchToks toks ([] : LC) with
    | none => rw [hm] at h; cases h
    | some ns => simp
  | cons c rest ih =>
    intro i j h
    unfold searchAux
    cases hm : matchToks toks (c :: rest) with
    | some ns => simp
    | none =>
      cases j with
      | zero =>
        rw [List.drop_zero] at h
        rw [hm] at h
        cases h
      | succ j' =>
        rw [List.drop_succ_cons] at h
        exact ih (i + 1) j' h

theorem searchToks_isSome (toks : List Tok) (s : LC) (j : Nat)
    (h : (matchToks toks (s.drop j)).isSome) : (searchToks toks s).isSome :=
  searchAux_isSome toks s 0 j h

/-! ## Positions, lines and occurrences -/

theorem take_of_prefix (l s : LC) (h : l <+: s) : s.take l.length = l := by
  obtain ⟨t, ht⟩ := h
  conv_lhs => rw [← ht]
  rw [List.take_append_of_le_length (le_refl _)]
  simp

theorem count_take_le_count_take (s : LC) (c : Char) (i j : Nat) (h : i ≤ j) :
    (s.take i).count c ≤ (s.take j).count c := by
  have : s.take i = (s.take j).take i := by
    rw [List.take_take, Nat.min_eq_left h]
  rw [this]
  exact (List.take_sublist _ _).count_le c

theorem count_take_le_count (s : LC) (c : Char) (i : Nat) :
    (s.take i).count c ≤ s.count c :=
  (List.take_sublist _ _).count_le c

theorem idxOf_spec (pat : LC) :
    ∀ s : LC, pat <:+: s →
      s = s.take (idxOf pat s) ++ pat ++ s.drop (idxOf pat s + pat.length) := by
  intro s
  induction s with
  | nil =>
    intro h
    have hp : pat = [] := List.eq_nil_of_infix_nil h
    subst hp
    rfl
  | cons c rest ih =>
    intro h
    unfold idxOf
    by_cases hp : pat.isPrefixOf (c :: rest)
    · rw [if_pos hp]
      have hpre := List.isPrefixOf_iff_prefix.mp hp
      obtain ⟨t, ht⟩ := hpre
      rw [List.take_zero, List.nil_append, Nat.zero_add]
      conv_lhs => rw [← ht]
      congr 1
      rw [← ht, List.drop_left]
    · rw [if_neg hp]
      have hr : pat <:+: rest := by
        rcases List.infix_cons_iff.mp h with h1 | h1
        · exact absurd (List.isPrefixOf_iff_prefix.mpr h1) hp
        · exact h1
      have hrec := ih hr
      have h1 : 1 + idxOf pat rest = idxOf pat rest + 1 := Nat.add_comm _ _
      have h2 : 1 + idxOf pat rest + pat.length =
          (idxOf pat rest + pat.length) + 1 := by omega
      rw [h2, h1, List.take_succ_cons, List.drop_succ_cons,
        List.cons_append, List.cons_append]
      exact congrArg (List.cons c) hrec

/-- The line (0-based, as an index into `splitLines`) holding a newline-free
segment `m` of `s = u ++ m ++ v` is line `u.count '\n'`, and it contains `m`. -/
theorem line_contains (u m v : LC) (hnl : '\n' ∉ m) :
    m <:+: (splitLines (u ++ m ++ v)).getD (u.count '\n') [] := by
  have hmv : splitLines (m ++ v) =
      (m ++ (splitLines v).headD []) :: (splitLines v).tail := by
    show splitOnChar '\n' (m ++ v) = _
    rw [splitOnChar_append, splitOnChar_of_not_mem '\n' m hnl]
    rcases hv : splitOnChar '\n' v with _ | ⟨y, ys⟩
    · exact absurd hv (splitOnChar_ne_nil '\n' v)
    · simp [splitLines, hv]
  have happ : splitLines (u ++ (m ++ v)) =
      (splitLines u).dropLast ++
        ((splitLines (m ++ v)).modifyHead (fun h => (splitLines u).getLastD [] ++ h)) := by
    show splitOnChar '\n' (u ++ (m ++ v)) = _
    rw [splitOnChar_append]
    rfl
  have hlen : ((splitLines u).dropLast).length = u.count '\n' := by
    have := length_splitLines u
    have hne := splitOnChar_ne_nil '\n' u
    rw [List.length_dropLast]
    omega
  rw [List.append_assoc, happ, hmv]
  simp only [List.modifyHead]
  rw [List.getD_eq_getElem?_getD,
    List.getElem?_append_right (by omega),
    hlen, Nat.sub_self]
  simp only [List.getElem?_cons_zero, Option.getD_some]
  exact ⟨(splitLines u).getLastD [], (splitLines v).headD [], by simp⟩

theorem idxOf_le_length (pat : LC) : ∀ s : LC, idxOf pat s ≤ s.length := by
  intro s
  induction s with
  | nil => simp [idxOf]
  | cons c rest ih =>
    unfold idxOf
    by_cases hp : pat.isPrefixOf (c :: rest)
    · rw [if_pos hp]
      omega
    · rw [if_neg hp]
      simp only [List.length_cons]
      omega

theorem claim_C4_witness :
    ∃ r ∈ [(⟨⟨"//compute.googleapis.com/projects/p/zones/z/instances/i".toList,
        "n1-standard-2".toList, "r1".toList, "e1".toList⟩, "default".toList⟩ :
        VMMatchedResource)],
      (⟨"r1".toList, "e1".toList⟩ : ClaimedRecommendation) = vmClaimOf r :=
  (claim_C4_amended
      [⟨"/repo/x/a.tf".toList,
        ("resource \"google_compute_instance\" \"default\" \x7b\n" ++
         "  machine_type = \"g1-small\"\n" ++
         "\x7d\n").toList⟩]
      none
      [⟨⟨"//compute.googleapis.com/projects/p/zones/z/instances/i".toList,
         "n1-standard-2".toList, "r1".toList, "e1".toList⟩, "default".toList⟩]
      []).1
    ⟨"r1".toList, "e1".toList⟩ (by decide)

/-! ## Joining line ranges -/

theorem joinChar_modifyHead (sep : Char) (x : LC) (ls : List LC) (h : ls ≠ []) :
    joinChar sep (ls.modifyHead (fun l => x ++ l)) = x ++ joinChar sep ls := by
  cases ls with
  | nil => exact absurd rfl h
  | cons y ys =>
    cases ys with
    | nil => rfl
    | cons z zs =>
      simp only [List.modifyHead]
      rw [joinChar_cons, joinChar_cons, List.append_assoc]

theorem joinChar_take_drop (sep : Char) :
    ∀ (ls : List LC) (K : Nat), 1 ≤ K → K < ls.length →
      joinChar sep ls = joinChar sep (ls.take K) ++ sep :: joinChar sep (ls.drop K) := by
  intro ls
  induction ls with
  | nil => intro K h1 h2; simp at h2
  | cons y ys ih =>
    intro K h1 h2
    cases K with
    | zero => omega
    | succ K' =>
      rw [List.take_succ_cons, List.drop_succ_cons]
      cases K' with
      | zero =>
        cases ys with
        | nil => simp at h2
        | cons z zs =>
          rw [joinChar_cons]
          rfl
      | succ K'' =>
        cases ys with
        | nil => simp at h2
        | cons z zs =>
          rw [joinChar_cons, ih (K'' + 1) (by omega) (by simpa using h2)]
          cases htk : (z :: zs).take (K'' + 1) with
          | nil => simp at htk
          | cons w ws =>
            rw [joinChar_cons]
            simp [List.append_assoc]

theorem count_joinChar (sep : Char) :
    ∀ ls : List LC, (∀ l ∈ ls, sep ∉ l) → ls ≠ [] →
      (joinChar sep ls).count sep = ls.length - 1 := by
  intro ls
  induction ls with
  | nil => intro _ h; exact absurd rfl h
  | cons y ys ih =>
    intro hfree _
    cases ys with
    | nil =>
      show (joinChar sep [y]).count sep = 0
      exact List.count_eq_zero.mpr (hfree y (by simp))
    | cons z zs =>
      rw [joinChar_cons, List.count_append, List.count_cons,
        ih (fun l hl => hfree l (List.mem_cons_of_mem _ hl)) (by simp)]
      rw [List.count_eq_zero.mpr (hfree y (by simp))]
      simp

/-- The matched region of a file is contained (as a contiguous substring) in
the copied line range from the line of its first character to the line one
past its last character. -/
theorem copyLines_infix (F : LC) (i L : Nat)
    (hiL : i + L ≤ F.length) (hL : 1 ≤ L) :
    (F.drop i).take L <:+:
      copyLines F ((F.take i).count '\n' + 1) ((F.take (i + L + 1)).count '\n' + 1) := by
  set M : LC := (F.drop i).take L with hMdef
  set P : LC := F.take i with hPdef
  set S : LC := F.drop (i + L) with hSdef
  have hMlen : M.length = L := by
    rw [hMdef, List.length_take, List.length_drop]
    omega
  have hPlen : P.length = i := by
    rw [hPdef, List.length_take]
    omega
  have hF : F = P ++ (M ++ S) := by
    rw [hPdef, hMdef, hSdef]
    conv_lhs => rw [← List.take_append_drop i F]
    congr 1
    conv_lhs => rw [← List.take_append_drop L (F.drop i)]
    rw [List.drop_drop, Nat.add_comm]
  set a : Nat := P.count '\n' with hadef
  set b : Nat := (F.take (i + L + 1)).count '\n' with hbdef
  set lastP : LC := (splitLines P).getLastD [] with hlastPdef
  have hgetLastD_free : ∀ (ls : List LC), (∀ l ∈ ls, '\n' ∉ l) → '\n' ∉ ls.getLastD [] := by
    intro ls h
    cases hls : ls.getLast? with
    | none =>
      rw [List.getLastD_eq_getLast?, hls]
      simp
    | some w =>
      rw [List.getLastD_eq_getLast?, hls]
      simp only [Option.getD_some]
      exact h w (List.mem_of_getLast?_eq_some hls)
  have hlastPfree : '\n' ∉ lastP := by
    rw [hlastPdef]
    exact hgetLastD_free (splitLines P) (not_nl_of_mem_splitLines P)
  set ms : List LC := (splitLines (M ++ S)).modifyHead (fun l => lastP ++ l) with hmsdef
  have hsplitF : splitLines F = (splitLines P).dropLast ++ ms := by
    rw [hmsdef, hlastPdef]
    conv_lhs => rw [hF]
    exact splitOnChar_append '\n' P (M ++ S)
  have hdllen : ((splitLines P).dropLast).length = a := by
    have h1 := length_splitLines P
    rw [List.length_dropLast]
    omega
  have hmsne : ms ≠ [] := by
    rw [hmsdef]
    rcases hsp : splitLines (M ++ S) with _ | ⟨y, ys⟩
    · exact absurd hsp (splitOnChar_ne_nil '\n' (M ++ S))
    · simp
  have hdrop_a : (splitLines F).drop a = ms := by
    rw [hsplitF, ← hdllen, List.drop_left]
  have hjoin_ms : joinLines ms = lastP ++ (M ++ S) := by
    rw [hmsdef]
    show joinChar '\n' ((splitLines (M ++ S)).modifyHead (fun l => lastP ++ l)) =
      lastP ++ (M ++ S)
    rw [joinChar_modifyHead '\n' lastP (splitLines (M ++ S))
      (splitOnChar_ne_nil '\n' (M ++ S))]
    exact congrArg (lastP ++ ·) (joinLines_splitLines (M ++ S))
  have hmsfree : ∀ l ∈ ms, '\n' ∉ l := by
    intro l hl
    rw [hmsdef] at hl
    rcases hsp : splitLines (M ++ S) with _ | ⟨y, ys⟩
    · exact absurd hsp (splitOnChar_ne_nil '\n' (M ++ S))
    · rw [hsp] at hl
      simp only [List.modifyHead] at hl
      rcases List.mem_cons.mp hl with hl' | hl'
      · subst hl'
        intro hmem
        rcases List.mem_append.mp hmem with h1 | h1
        · exact hlastPfree h1
        · exact not_nl_of_mem_splitLines (M ++ S) y (by rw [hsp]; simp) h1
      · exact not_nl_of_mem_splitLines (M ++ S) l (by rw [hsp]; simp [hl'])
  have hab : a ≤ b := by
    rw [hadef, hbdef, hPdef]
    exact count_take_le_count_take F '\n' i (i + L + 1) (by omega)
  have hcountM : M.count '\n' ≤ b - a := by
    have h1 : F.take (i + L + 1) = P ++ M ++ S.take 1 := by
      conv_lhs => rw [hF]
      rw [List.append_assoc]
      rw [List.take_append_eq_append_take, List.take_of_length_le (by rw [hPlen]; omega),
        List.take_append_eq_append_take, List.take_of_length_le (by rw [hMlen, hPlen]; omega)]
      rw [hPlen, hMlen]
      have : i + L + 1 - i - L = 1 := by omega
      rw [this]
    have h2 : b = a + M.count '\n' + (S.take 1).count '\n' := by
      rw [hbdef, h1, List.count_append, List.count_append, hadef]
    omega
  -- the copied range
  unfold copyLines
  rw [Nat.add_sub_cancel]
  rw [show (F.take (i + L + 1)).count '\n' + 1 - (F.take i).count '\n' = b + 1 - a from rfl]
  rw [hdrop_a]
  set K : Nat := b + 1 - a with hKdef
  by_cases hKlen : K < ms.length
  · have hK1 : 1 ≤ K := by omega
    have hsplit := joinChar_take_drop '\n' ms K hK1 hKlen
    have hcountTake : (joinLines (ms.take K)).count '\n' = K - 1 := by
      have htklen : (ms.take K).length = K := by
        rw [List.length_take]
        omega
      have h1 := count_joinChar '\n' (ms.take K)
        (fun l hl => hmsfree l (List.mem_of_mem_take hl))
        (by
          intro hc
          have := congrArg List.length hc
          rw [htklen] at this
          simp at this
          omega)
      rw [htklen] at h1
      exact h1
    set T : Nat := (joinLines (ms.take K)).length with hTdef
    have hJtake : (joinLines ms).take T = joinLines (ms.take K) := by
      show (joinChar '\n' ms).take T = _
      rw [hsplit, List.take_append_eq_append_take, hTdef]
      unfold joinLines
      rw [List.take_of_length_le (le_refl _), Nat.sub_self]
      simp
    have hJT : (joinLines ms)[T]? = some '\n' := by
      have hTlen : T = (joinChar '\n' (ms.take K)).length := hTdef
      show (joinChar '\n' ms)[T]? = some '\n'
      rw [hsplit, List.getElem?_append_right hTlen.ge,
        hTlen, Nat.sub_self]
      simp
    have hTge : lastP.length + M.length ≤ T := by
      by_contra hlt
      push_neg at hlt
      have hc1 : ((joinLines ms).take (T + 1)).count '\n' = K := by
        rw [List.take_succ, hJT, List.count_append, hJtake, hcountTake]
        simp
        omega
      have hc2 : ((joinLines ms).take (lastP.length + M.length)).count '\n' = M.count '\n' := by
        rw [hjoin_ms, ← List.append_assoc, List.take_append_eq_append_take,
          List.take_of_length_le (by simp), ← List.length_append, Nat.sub_self]
        rw [List.take_zero, List.append_nil, List.count_append]
        rw [List.count_eq_zero.mpr hlastPfree]
        simp
      have hmono := count_take_le_count_take (joinLines ms) '\n' (T + 1)
        (lastP.length + M.length) (by omega)
      rw [hc1, hc2] at hmono
      omega
    have : M <:+: (joinLines ms).take T := by
      rw [hjoin_ms, ← List.append_assoc, List.take_append_eq_append_take,
        List.take_of_length_le (by simp; omega)]
      exact ((List.suffix_append lastP M).isInfix).trans (List.prefix_append _ _).isInfix
    rw [hJtake] at this
    exact this
  · push_neg at hKlen
    rw [List.take_of_length_le hKlen, hjoin_ms, ← List.append_assoc]
    exact ((List.suffix_append lastP M).isInfix).trans (List.prefix_append _ _).isInfix

/-! ## Claim C3: the single-member comment-out -/

/-- C3 (counterexample): with a variable reference that spans a line break
*before* the binding block, the resolved (matching) view has one line fewer
than the original text, so the line number computed on the resolved view
comments the wrong line of the original file: the `members = [` line (index 5)
gains the markers while the removed member's line (index 6) is untouched. -/
theorem claim_C3_counterexample :
    findAndModifyIAMRoleBindings
        [⟨"/repo/x/m.tf".toList,
          ("q = \"$\x7b\n var.a \x7d\"\n" ++
           "resource \"google_project_iam_binding\" \"b\" \x7b\n" ++
           "project = \"p\"\n" ++
           "role = \"roles/viewer\"\n" ++
           "members = [\n" ++
           "\"user:alice@example.com\",\n" ++
           "\"user:bob@example.com\"\n" ++
           "]\n" ++
           "\x7d\n").toList⟩]
        (some "a = \"X\"".toList)
        [⟨"p".toList, "user:alice@example.com".toList, "roles/viewer".toList, [],
          "rid".toList, "retag".toList, "b".toList⟩] =
      Except.ok
        ([⟨"/repo/x/m.tf".toList,
           ("q = \"$\x7b\n var.a \x7d\"\n" ++
            "resource \"google_project_iam_binding\" \"b\" \x7b\n" ++
            "project = \"p\"\n" ++
            "role = \"roles/viewer\"\n" ++
            "/* members = [ */\n" ++
            "\"user:alice@example.com\",\n" ++
            "\"user:bob@example.com\"\n" ++
            "]\n" ++
            "\x7d\n").toList⟩],
         [⟨"rid".toList, "retag".toList⟩]) := by decide

/-- C3 (amended): when the binding declaration is found in a file whose
resolved view coincides with its original text, the member list after removal
is still non-empty, and the member does not span lines, then exactly one line
gains comment markers — namely the line of the member occurrence located
by the engine, which does contain the quoted member — and every other line of
the file is byte-for-byte unchanged (line count preserved). -/
theorem claim_C3_amended (F : LC) (r : IAMMatchedResource) (i : Nat) (lens : List Nat)
    (members : List LC) (x : LC) (xs : List LC)
    (hres : searchToks (iamDeclToks r) F = some (i, lens))
    (hparse : jsonParseStringArray (sliceLens F i lens 24 29) = some members)
    (hfilter : members.filter (fun m => m ≠ r.member) = x :: xs)
    (hnl : '\n' ∉ r.member) :
    ∃ k : Nat,
      k < (splitLines F).length ∧
      ('"' :: r.member ++ ['"']) <:+: (splitLines F).getD k [] ∧
      iamProcessFile r F F = Except.ok (some (commentLines F (k + 1) (k + 1))) ∧
      (splitLines (commentLines F (k + 1) (k + 1))).length = (splitLines F).length ∧
      (splitLines (commentLines F (k + 1) (k + 1))).getD k [] =
        '/' :: '*' :: ' ' :: ((splitLines F).getD k [] ++ [' ', '*', '/']) ∧
      ∀ j, j ≠ k → (splitLines (commentLines F (k + 1) (k + 1))).getD j [] =
        (splitLines F).getD j [] := by
  have hm := searchToks_sound _ _ _ _ hres
  have hc := matchToks_consumes _ _ _ hm
  set pat : LC := '"' :: r.member ++ ['"'] with hpatdef
  set matched : LC := matchedText F i lens with hmatdef
  set p : Nat := idxOf pat matched with hpdef
  have hpatne : pat ≠ [] := by simp [hpatdef]
  have hpatnl : '\n' ∉ pat := by
    intro hmem
    rcases List.mem_cons.mp hmem with h1 | h1
    · cases h1
    · rcases List.mem_append.mp h1 with h2 | h2
      · exact hnl h2
      · simp at h2
  have hpat : pat <:+: matched := by
    have := consumes_lit_infix _ _ _ hc pat (by
      rw [hpatdef]
      unfold iamDeclToks
      simp)
    exact this
  have hsum : lens.sum ≤ (F.drop i).length := consumes_sum_le _ _ _ hc
  have hmlen : matched.length = lens.sum := by
    rw [hmatdef]
    unfold matchedText
    rw [List.length_take]
    omega
  have hdecomp := idxOf_spec pat matched hpat
  have hple : p + pat.length ≤ lens.sum := by
    have hlen2 := congrArg List.length hdecomp
    simp only [List.length_append, List.length_take, List.length_drop] at hlen2
    have hpl := idxOf_le_length pat matched
    rw [← hpdef] at hpl
    omega
  have hiF : i + lens.sum ≤ F.length := by
    rw [List.length_drop] at hsum
    by_cases hgt : i ≤ F.length
    · omega
    · exfalso
      have hdropnil : F.drop i = [] := List.drop_eq_nil_of_le (by omega)
      have : matched = [] := by
        rw [hmatdef]
        unfold matchedText
        rw [hdropnil]
        simp
      rw [this] at hpat
      exact hpatne (List.eq_nil_of_infix_nil hpat)
  have htake_ip : F.take (i + p) = F.take i ++ matched.take p := by
    rw [List.take_add]
    congr 1
    rw [hmatdef]
    unfold matchedText
    rw [List.take_take, Nat.min_eq_left (by omega)]
  have hdropF : F.drop i = matched ++ ((F.drop i).drop lens.sum) := by
    rw [hmatdef]
    unfold matchedText
    exact (List.take_append_drop lens.sum (F.drop i)).symm
  have hFdec : F = F.take (i + p) ++ pat ++
      (matched.drop (p + pat.length) ++ (F.drop i).drop lens.sum) := by
    conv_lhs => rw [← List.take_append_drop i F, hdropF, hdecomp]
    rw [htake_ip]
    simp [List.append_assoc]
  set k : Nat := (F.take (i + p)).count '\n' with hkdef
  have hulen : (F.take (i + p)).length = i + p := by
    rw [List.length_take, Nat.min_eq_left (by omega)]
  have hcharq : F[(i + p)]? = some '"' := by
    conv_lhs => rw [hFdec]
    rw [List.append_assoc, List.getElem?_append_right (by omega), hulen, Nat.sub_self]
    rw [hpatdef]
    simp
  have hln : findLineNumbersFromCharacters F (i + p) = k + 1 := by
    unfold findLineNumbersFromCharacters
    rw [countNLUpto_eq_count_take, List.take_succ, hcharq]
    rw [List.count_append]
    simp only [hkdef]
    have : List.count '\n' (some '"').toList = 0 := by decide
    rw [this]
    omega
  have hkmax : k < (splitLines F).length := by
    rw [length_splitLines]
    have := count_take_le_count F '\n' (i + p)
    omega
  have hline : pat <:+: (splitLines F).getD k [] := by
    have := line_contains (F.take (i + p)) pat
      (matched.drop (p + pat.length) ++ (F.drop i).drop lens.sum) hpatnl
    rw [← hFdec] at this
    exact this
  have hout : iamProcessFile r F F =
      Except.ok (some (commentLines F (k + 1) (k + 1))) := by
    unfold iamProcessFile
    rw [hres]
    simp only [← hmatdef, ← hpatdef, ← hpdef, hparse, hfilter, hln]
  refine ⟨k, hkmax, hline, hout, ?_, ?_, ?_⟩
  · rw [splitLines_commentLines]
    simp
  · rw [splitLines_commentLines]
    simp only [Nat.add_sub_cancel]
    rw [List.getD_eq_getElem?_getD]
    have hset1 : ((splitLines F).set k
        ('/' :: '*' :: ' ' :: (splitLines F).getD k [])).getD k [] =
        '/' :: '*' :: ' ' :: (splitLines F).getD k [] := by
      rw [List.getD_eq_getElem?_getD, List.getElem?_set_self (by simpa using hkmax)]
      rfl
    rw [List.set_set, List.getElem?_set_self (by simpa using hkmax)]
    rw [hset1]
    rfl
  · intro j hj
    rw [splitLines_commentLines]
    simp only [Nat.add_sub_cancel]
    rw [List.getD_eq_getElem?_getD, List.getD_eq_getElem?_getD,
      List.getElem?_set_ne (fun h => hj h.symm),
      List.getElem?_set_ne (fun h => hj h.symm)]
    exact (List.getD_eq_getElem?_getD _ _ _).symm

theorem claim_C3_witness :
    ∃ k : Nat,
      k < (splitLines ("resource \"google_project_iam_binding\" \"b\" \x7b\n" ++
          "project = \"p\"\nrole = \"r\"\nmembers = [ \"m\" , \"n\" ]\n\x7d\n").toList).length ∧
      ('"' :: "m".toList ++ ['"']) <:+:
        (splitLines ("resource \"google_project_iam_binding\" \"b\" \x7b\n" ++
          "project = \"p\"\nrole = \"r\"\nmembers = [ \"m\" , \"n\" ]\n\x7d\n").toList).getD k [] ∧
      iamProcessFile
          ⟨"p".toList, "m".toList, "r".toList, [], "rid".toList, "retag".toList, "b".toList⟩
          ("resource \"google_project_iam_binding\" \"b\" \x7b\n" ++
            "project = \"p\"\nrole = \"r\"\nmembers = [ \"m\" , \"n\" ]\n\x7d\n").toList
          ("resource \"google_project_iam_binding\" \"b\" \x7b\n" ++
            "project = \"p\"\nrole = \"r\"\nmembers = [ \"m\" , \"n\" ]\n\x7d\n").toList =
        Except.ok (some (commentLines
          ("resource \"google_project_iam_binding\" \"b\" \x7b\n" ++
            "project = \"p\"\nrole = \"r\"\nmembers = [ \"m\" , \"n\" ]\n\x7d\n").toList
          (k + 1) (k + 1))) ∧
      (splitLines (commentLines
          ("resource \"google_project_iam_binding\" \"b\" \x7b\n" ++
            "project = \"p\"\nrole = \"r\"\nmembers = [ \"m\" , \"n\" ]\n\x7d\n").toList
          (k + 1) (k + 1))).length =
        (splitLines ("resource \"google_project_iam_binding\" \"b\" \x7b\n" ++
          "project = \"p\"\nrole = \"r\"\nmembers = [ \"m\" , \"n\" ]\n\x7d\n").toList).length ∧
      (splitLines (commentLines
          ("resource \"google_project_iam_binding\" \"b\" \x7b\n" ++
            "project = \"p\"\nrole = \"r\"\nmembers = [ \"m\" , \"n\" ]\n\x7d\n").toList
          (k + 1) (k + 1))).getD k [] =
        '/' :: '*' :: ' ' ::
          ((splitLines ("resource \"google_project_iam_binding\" \"b\" \x7b\n" ++
            "project = \"p\"\nrole = \"r\"\nmembers = [ \"m\" , \"n\" ]\n\x7d\n").toList).getD k [] ++
            [' ', '*', '/']) ∧
      ∀ j, j ≠ k →
        (splitLines (commentLines
            ("resource \"google_project_iam_binding\" \"b\" \x7b\n" ++
              "project = \"p\"\nrole = \"r\"\nmembers = [ \"m\" , \"n\" ]\n\x7d\n").toList
            (k + 1) (k + 1))).getD j [] =
          (splitLines ("resource \"google_project_iam_binding\" \"b\" \x7b\n" ++
            "project = \"p\"\nrole = \"r\"\nmembers = [ \"m\" , \"n\" ]\n\x7d\n").toList).getD j [] :=
  claim_C3_amended
    ("resource \"google_project_iam_binding\" \"b\" \x7b\n" ++
      "project = \"p\"\nrole = \"r\"\nmembers = [ \"m\" , \"n\" ]\n\x7d\n").toList
    ⟨"p".toList, "m".toList, "r".toList, [], "rid".toList, "retag".toList, "b".toList⟩
    0 [8, 1, 28, 1, 3, 1, 1, 1, 7, 1, 1, 1, 3, 1, 4, 1, 1, 1, 3, 1, 7, 1, 1, 1, 1, 1, 3, 7, 1, 1, 1]
    ["m".toList, "n".toList] "n".toList []
    (by decide) (by decide) (by decide) (by decide)

/-! ## Claim C2: the empty-members comment-out with an appended rewritten copy

Destructuring a `Consumes` derivation token by token, and the algebra of
`sliceLens` segments, expose what the role-rewriting regex does to the
copied block. -/

theorem consumes_cons_lit (l : LC) (ts : List Tok) (lens : List Nat) (s : LC)
    (h : Consumes (Tok.lit l :: ts) lens s) :
    ∃ ns, lens = l.length :: ns ∧ l <+: s ∧ Consumes ts ns (s.drop l.length) := by
  cases lens with
  | nil => cases h
  | cons n ns =>
    obtain ⟨hn, hpre, hrest⟩ := h
    subst hn
    exact ⟨ns, rfl, hpre, hrest⟩

theorem consumes_cons_many (p : Char → Bool) (a g : Bool) (ts : List Tok) (lens : List Nat)
    (s : LC) (h : Consumes (Tok.many p a g :: ts) lens s) :
    ∃ n ns, lens = n :: ns ∧ (a = true → 1 ≤ n) ∧ n ≤ s.length ∧
      (∀ c ∈ s.take n, p c = true) ∧ Consumes ts ns (s.drop n) := by
  cases lens with
  | nil => cases h
  | cons n ns =>
    obtain ⟨ha, hle, hall, hrest⟩ := h
    exact ⟨n, ns, rfl, ha, hle, hall, hrest⟩

theorem consumes_nil_lens (lens : List Nat) (s : LC) (h : Consumes [] lens s) :
    lens = [] := by
  cases lens with
  | nil => rfl
  | cons n ns => cases h

theorem consumes_split :
    ∀ (ts1 ts2 : List Tok) (lens : List Nat) (s : LC),
      Consumes (ts1 ++ ts2) lens s →
      ∃ l1 l2, lens = l1 ++ l2 ∧ l1.length = ts1.length ∧
        Consumes ts1 l1 s ∧ Consumes ts2 l2 (s.drop l1.sum) := by
  intro ts1
  induction ts1 with
  | nil =>
    intro ts2 lens s h
    refine ⟨[], lens, rfl, rfl, trivial, ?_⟩
    simpa using h
  | cons t ts ih =>
    intro ts2 lens s h
    cases t with
    | lit l =>
      obtain ⟨ns, rfl, hpre, hrest⟩ := consumes_cons_lit l (ts ++ ts2) _ s h
      obtain ⟨l1, l2, rfl, hlen, hc1, hc2⟩ := ih ts2 ns _ hrest
      refine ⟨l.length :: l1, l2, rfl, by simp [hlen], ⟨rfl, hpre, hc1⟩, ?_⟩
      rw [List.sum_cons, ← List.drop_drop]
      exact hc2
    | many p a g =>
      obtain ⟨n, ns, rfl, ha, hle, hall, hrest⟩ := consumes_cons_many p a g (ts ++ ts2) _ s h
      obtain ⟨l1, l2, rfl, hlen, hc1, hc2⟩ := ih ts2 ns _ hrest
      refine ⟨n :: l1, l2, rfl, by simp [hlen], ⟨ha, hle, hall, hc1⟩, ?_⟩
      rw [List.sum_cons, ← List.drop_drop]
      exact hc2

theorem take_matched_drop (s : LC) (i : Nat) (lens : List Nat) :
    s = s.take i ++ matchedText s i lens ++ s.drop (i + lens.sum) := by
  unfold matchedText
  conv_lhs => rw [← List.take_append_drop i s]
  rw [List.append_assoc]
  congr 1
  conv_lhs => rw [← List.take_append_drop lens.sum (s.drop i)]
  rw [List.drop_drop, Nat.add_comm]

theorem sliceLens_append (s : LC) (i : Nat) (lens : List Nat) (a b c : Nat)
    (hab : a ≤ b) (hbc : b ≤ c) :
    sliceLens s i lens a b ++ sliceLens s i lens b c = sliceLens s i lens a c := by
  unfold sliceLens
  have h1 : lens.take b = lens.take a ++ (lens.drop a).take (b - a) := by
    conv_lhs => rw [show b = a + (b - a) from by omega, List.take_add]
  have h2 : (lens.drop a).take (c - a) =
      (lens.drop a).take (b - a) ++ (lens.drop b).take (c - b) := by
    conv_lhs => rw [show c - a = (b - a) + (c - b) from by omega, List.take_add]
    congr 2
    rw [List.drop_drop]
    congr 1
    omega
  have h3 : i + (lens.take b).sum =
      i + (lens.take a).sum + ((lens.drop a).take (b - a)).sum := by
    rw [h1, List.sum_append]
    omega
  rw [h2, List.sum_append, List.take_add, List.drop_drop, h3]

theorem sliceLens_all (s : LC) (i : Nat) (lens : List Nat) :
    sliceLens s i lens 0 lens.length = matchedText s i lens := by
  unfold sliceLens matchedText
  simp

/-- Any subject of the shape `x · role · ws · = · ws · " · v · " · post` with
the five parts nonempty/whitespace as required is consumed in full by the
role-rewriting regex. -/
theorem consumes_roleRepl (x u1 u2 v post : LC)
    (hx : x ≠ []) (hu1 : ∀ c ∈ u1, isWsChar c = true) (hu2 : ∀ c ∈ u2, isWsChar c = true)
    (hv : v ≠ []) (hpost : post ≠ []) :
    Consumes roleReplToks
      [x.length, ("role".toList).length, u1.length, (['='] : LC).length, u2.length,
       (['"'] : LC).length, v.length, (['"'] : LC).length, post.length]
      (x ++ ("role".toList ++ (u1 ++ (['='] ++ (u2 ++ (['"'] ++ (v ++ (['"'] ++ post)))))))) := by
  refine ⟨fun _ => List.length_pos.mpr hx, by simp, fun c _ => rfl, ?_⟩
  rw [List.drop_left]
  refine ⟨rfl, List.prefix_append _ _, ?_⟩
  rw [List.drop_left]
  refine ⟨by simp, by simp, ?_, ?_⟩
  · intro c hc
    rw [List.take_left] at hc
    exact hu1 c hc
  · rw [List.drop_left]
    refine ⟨rfl, List.prefix_append _ _, ?_⟩
    rw [List.drop_left]
    refine ⟨by simp, by simp, ?_, ?_⟩
    · intro c hc
      rw [List.take_left] at hc
      exact hu2 c hc
    · rw [List.drop_left]
      refine ⟨rfl, List.prefix_append _ _, ?_⟩
      rw [List.drop_left]
      refine ⟨fun _ => List.length_pos.mpr hv, by simp, fun c _ => rfl, ?_⟩
      rw [List.drop_left]
      refine ⟨rfl, List.prefix_append _ _, ?_⟩
      rw [List.drop_left]
      exact ⟨fun _ => List.length_pos.mpr hpost, Nat.le_refl _, fun c _ => rfl, trivial⟩

/-- Hence `exec` succeeds on any such subject (the match it returns may of
course start elsewhere: the leading greedy `.+` picks the last anchor). -/
theorem roleRepl_search_isSome (x u1 u2 v post : LC)
    (hx : x ≠ []) (hu1 : ∀ c ∈ u1, isWsChar c = true) (hu2 : ∀ c ∈ u2, isWsChar c = true)
    (hv : v ≠ []) (hpost : post ≠ []) :
    (searchToks roleReplToks
      (x ++ ("role".toList ++ (u1 ++ (['='] ++ (u2 ++ (['"'] ++ (v ++ (['"'] ++ post))))))))).isSome := by
  apply searchToks_isSome _ _ 0
  rw [List.drop_zero]
  exact consumes_matchToks_isSome _ _ _ (consumes_roleRepl x u1 u2 v post hx hu1 hu2 hv hpost)

/-- What one global replacement by `/(.+role\s*=\s*").+?(".+)/gs` with `$1add$2`
does: the subject splits as `A ++ v ++ B` where `A` ends in a
`role`-assignment anchor `role ws = ws "`, `v` (the old, nonempty value) is
replaced by `add`, and `B` (starting with the closing quote) and `A` are kept
verbatim. -/
theorem roleReplace_decomp (add s : LC) (j : Nat) (lens : List Nat)
    (h : searchToks roleReplToks s = some (j, lens)) :
    ∃ A v B,
      s = A ++ v ++ B ∧
      roleReplace add s = A ++ add ++ B ∧
      (∃ A0 u1 u2, A = A0 ++ "role".toList ++ u1 ++ ['='] ++ u2 ++ ['\"'] ∧
        (∀ c ∈ u1, isWsChar c = true) ∧ (∀ c ∈ u2, isWsChar c = true)) ∧
      v ≠ [] ∧ ['\"'] <+: B := by
  have hm := searchToks_sound _ _ _ _ h
  have hc := matchToks_consumes _ _ _ hm
  obtain ⟨n0, ns0, rfl, ha0, hle0, -, hc⟩ := consumes_cons_many _ _ _ _ _ _ hc
  obtain ⟨ns1, rfl, hpre1, hc⟩ := consumes_cons_lit _ _ _ _ hc
  obtain ⟨n2, ns2, rfl, -, hle2, hall2, hc⟩ := consumes_cons_many _ _ _ _ _ _ hc
  obtain ⟨ns3, rfl, hpre3, hc⟩ := consumes_cons_lit _ _ _ _ hc
  obtain ⟨n4, ns4, rfl, -, hle4, hall4, hc⟩ := consumes_cons_many _ _ _ _ _ _ hc
  obtain ⟨ns5, rfl, hpre5, hc⟩ := consumes_cons_lit _ _ _ _ hc
  obtain ⟨n6, ns6, rfl, ha6, hle6, -, hc⟩ := consumes_cons_many _ _ _ _ _ _ hc
  obtain ⟨ns7, rfl, hpre7, hc⟩ := consumes_cons_lit _ _ _ _ hc
  obtain ⟨n8, ns8, rfl, -, -, -, hc⟩ := consumes_cons_many _ _ _ _ _ _ hc
  have hns : ns8 = [] := consumes_nil_lens _ _ hc
  subst hns
  have hmatched : matchedText s j [n0, "role".toList.length, n2, ['='].length, n4, ['\"'].length, n6, ['\"'].length, n8] =
      List.take n0 (List.drop j s) ++ ("role".toList ++
        (List.take n2 (List.drop "role".toList.length (List.drop n0 (List.drop j s))) ++ (['='] ++
          (List.take n4 (List.drop ['='].length (List.drop n2 (List.drop "role".toList.length (List.drop n0 (List.drop j s))))) ++ (['\"'] ++
            (List.take n6 (List.drop ['\"'].length (List.drop n4 (List.drop ['='].length (List.drop n2 (List.drop "role".toList.length (List.drop n0 (List.drop j s))))))) ++ (['\"'] ++
              List.take n8 (List.drop ['\"'].length (List.drop n6 (List.drop ['\"'].length (List.drop n4 (List.drop ['='].length (List.drop n2 (List.drop "role".toList.length (List.drop n0 (List.drop j s)))))))))))))))) := by
    show List.take (n0 + ("role".toList.length + (n2 + (['='].length + (n4 + (['\"'].length + (n6 + (['\"'].length + n8)))))))) (List.drop j s) = _
    rw [List.take_add, List.take_add, take_of_prefix _ _ hpre1, List.take_add, List.take_add,
      take_of_prefix _ _ hpre3, List.take_add, List.take_add, take_of_prefix _ _ hpre5,
      List.take_add, List.take_add, take_of_prefix _ _ hpre7]
  have h06 : sliceLens s j [n0, "role".toList.length, n2, ['='].length, n4, ['\"'].length, n6, ['\"'].length, n8] 0 6 =
      List.take n0 (List.drop j s) ++ ("role".toList ++
        (List.take n2 (List.drop "role".toList.length (List.drop n0 (List.drop j s))) ++ (['='] ++
          (List.take n4 (List.drop ['='].length (List.drop n2 (List.drop "role".toList.length (List.drop n0 (List.drop j s))))) ++ ['\"'])))) := by
    show List.take (n0 + ("role".toList.length + (n2 + (['='].length + (n4 + ['\"'].length))))) (List.drop j s) = _
    rw [List.take_add, List.take_add, take_of_prefix _ _ hpre1, List.take_add, List.take_add,
      take_of_prefix _ _ hpre3, List.take_add, take_of_prefix _ _ hpre5]
  have ht7 : List.drop (j + (n0 + ("role".toList.length + (n2 + (['='].length + (n4 + (['\"'].length + n6))))))) s = (List.drop n6 (List.drop ['\"'].length (List.drop n4 (List.drop ['='].length (List.drop n2 (List.drop "role".toList.length (List.drop n0 (List.drop j s)))))))) := by
    simp only [List.drop_drop]
    congr 1
    omega
  have h79 : sliceLens s j [n0, "role".toList.length, n2, ['='].length, n4, ['\"'].length, n6, ['\"'].length, n8] 7 9 =
      ['\"'] ++ List.take n8 (List.drop ['\"'].length (List.drop n6 (List.drop ['\"'].length (List.drop n4 (List.drop ['='].length (List.drop n2 (List.drop "role".toList.length (List.drop n0 (List.drop j s))))))))) := by
    show List.take (['\"'].length + n8) (List.drop (j + (n0 + ("role".toList.length + (n2 + (['='].length + (n4 + (['\"'].length + n6))))))) s) = _
    rw [ht7, List.take_add, take_of_prefix _ _ hpre7]
  have hred : roleReplace add s =
      List.take j s ++ sliceLens s j [n0, "role".toList.length, n2, ['='].length, n4, ['\"'].length, n6, ['\"'].length, n8] 0 6 ++ add ++
      sliceLens s j [n0, "role".toList.length, n2, ['='].length, n4, ['\"'].length, n6, ['\"'].length, n8] 7 9 ++
      List.drop (j + ([n0, "role".toList.length, n2, ['='].length, n4, ['\"'].length, n6, ['\"'].length, n8] : List Nat).sum) s := by
    unfold roleReplace
    rw [h]
  refine ⟨List.take j s ++ (List.take n0 (List.drop j s) ++ ("role".toList ++
      (List.take n2 (List.drop "role".toList.length (List.drop n0 (List.drop j s))) ++ (['='] ++
        (List.take n4 (List.drop ['='].length (List.drop n2 (List.drop "role".toList.length (List.drop n0 (List.drop j s))))) ++ ['\"']))))),
    List.take n6 (List.drop ['\"'].length (List.drop n4 (List.drop ['='].length (List.drop n2 (List.drop "role".toList.length (List.drop n0 (List.drop j s))))))),
    ['\"'] ++ (List.take n8 (List.drop ['\"'].length (List.drop n6 (List.drop ['\"'].length (List.drop n4 (List.drop ['='].length (List.drop n2 (List.drop "role".toList.length (List.drop n0 (List.drop j s))))))))) ++
      List.drop (j + ([n0, "role".toList.length, n2, ['='].length, n4, ['\"'].length, n6, ['\"'].length, n8] : List Nat).sum) s),
    ?_, ?_, ?_, ?_, ?_⟩
  · conv_lhs => rw [take_matched_drop s j [n0, "role".toList.length, n2, ['='].length, n4, ['\"'].length, n6, ['\"'].length, n8], hmatched]
    simp [List.append_assoc]
  · rw [hred, h06, h79]
    simp [List.append_assoc]
  · refine ⟨List.take j s ++ List.take n0 (List.drop j s),
      List.take n2 (List.drop "role".toList.length (List.drop n0 (List.drop j s))),
      List.take n4 (List.drop ['='].length (List.drop n2 (List.drop "role".toList.length (List.drop n0 (List.drop j s))))), ?_, hall2, hall4⟩
    simp [List.append_assoc]
  · intro hnil
    have hlen := congrArg List.length hnil
    rw [List.length_take] at hlen
    simp only [List.length_nil] at hlen
    have h1 := ha6 rfl
    omega
  · exact List.prefix_append _ _

/-- The shape of any subject consumed by the IAM binding-declaration regex:
it starts with `resource`, and the matched text carries a `role`-assignment
anchor holding the recommendation's role, with nonempty text on both sides. -/
theorem iam_match_shape (r : IAMMatchedResource) (lens : List Nat) (s : LC)
    (h : Consumes (iamDeclToks r) lens s) :
    "resource".toList <+: s ∧
    ∃ pre u1 u2 post,
      s.take lens.sum =
        pre ++ ("role".toList ++ (u1 ++ (['='] ++ (u2 ++ (['\"'] ++ (r.role ++ (['\"'] ++ post))))))) ∧
      pre ≠ [] ∧ (∀ c ∈ u1, isWsChar c = true) ∧ (∀ c ∈ u2, isWsChar c = true) ∧
      post ≠ [] := by
  have hT : Consumes
      ([Tok.lit "resource".toList, Tok.many isWsChar true true,
        Tok.lit "\"google_project_iam_binding\"".toList, Tok.many isWsChar true true,
        Tok.lit ('\"' :: r.resourceName ++ ['\"']), Tok.many isWsChar true true,
        Tok.lit ['\x7b'],
        Tok.many (fun _ => true) true false,
        Tok.lit "project".toList, Tok.many isWsChar false true, Tok.lit ['='],
        Tok.many isWsChar false true, Tok.lit ('\"' :: r.project ++ ['\"']),
        Tok.many (fun _ => true) true false] ++
       [Tok.lit "role".toList, Tok.many isWsChar false true, Tok.lit ['='],
        Tok.many isWsChar false true, Tok.lit ('\"' :: r.role ++ ['\"']),
        Tok.many (fun _ => true) true false,
        Tok.lit "members".toList, Tok.many isWsChar false true, Tok.lit ['='],
        Tok.many isWsChar false true,
        Tok.lit ['['], Tok.many (fun _ => true) true false,
        Tok.lit ('\"' :: r.member ++ ['\"']), Tok.many (fun _ => true) true false,
        Tok.lit [']'],
        Tok.many (fun _ => true) true false, Tok.lit ['\x7d']]) lens s := h
  obtain ⟨l1, l2, rfl, -, hc1, hc2⟩ := consumes_split _ _ _ _ hT
  have hsum1 : l1.sum ≤ s.length := consumes_sum_le _ _ _ hc1
  obtain ⟨ns1, hl1, hpre0, -⟩ := consumes_cons_lit _ _ _ _ hc1
  have hR8 : ("resource".toList).length = 8 := rfl
  have hl1sum : l1.sum = 8 + ns1.sum := by
    rw [hl1, List.sum_cons, hR8]
  obtain ⟨ns14, rfl, hpre14, hc2⟩ := consumes_cons_lit _ _ _ _ hc2
  obtain ⟨n15, ns15, rfl, -, hle15, hall15, hc2⟩ := consumes_cons_many _ _ _ _ _ _ hc2
  obtain ⟨ns16, rfl, hpre16, hc2⟩ := consumes_cons_lit _ _ _ _ hc2
  obtain ⟨n17, ns17, rfl, -, hle17, hall17, hc2⟩ := consumes_cons_many _ _ _ _ _ _ hc2
  obtain ⟨ns18, rfl, hpre18, hc2⟩ := consumes_cons_lit _ _ _ _ hc2
  have hpost_le := consumes_sum_le _ _ _ hc2
  obtain ⟨n19, ns19, rfl, ha19, -, -, -⟩ := consumes_cons_many _ _ _ _ _ _ hc2
  rw [List.sum_cons] at hpost_le
  refine ⟨hpre0, List.take l1.sum s, List.take n15 (List.drop "role".toList.length (List.drop l1.sum s)), List.take n17 (List.drop ['='].length (List.drop n15 (List.drop "role".toList.length (List.drop l1.sum s)))),
    List.take (n19 + ns19.sum) (List.drop ('\"' :: r.role ++ ['\"']).length (List.drop n17 (List.drop ['='].length (List.drop n15 (List.drop "role".toList.length (List.drop l1.sum s)))))), ?_, ?_, hall15, hall17, ?_⟩
  · rw [List.sum_append, List.take_add]
    congr 1
    show List.take ("role".toList.length + (n15 + (['='].length + (n17 + (('\"' :: r.role ++ ['\"']).length + (n19 + ns19.sum)))))) (List.drop l1.sum s) = _
    rw [List.take_add, take_of_prefix _ _ hpre14, List.take_add, List.take_add,
      take_of_prefix _ _ hpre16, List.take_add, List.take_add, take_of_prefix _ _ hpre18]
    simp [List.append_assoc]
  · intro hnil
    have hlen := congrArg List.length hnil
    rw [List.length_take] at hlen
    simp only [List.length_nil] at hlen
    omega
  · intro hnil
    have hlen := congrArg List.length hnil
    rw [List.length_take] at hlen
    simp only [List.length_nil] at hlen
    have h19 := ha19 rfl
    omega

/-- C2 (amended): when the binding declaration is found in a file whose
resolved view coincides with its original text, removing the member empties
the list, and the recommendation's `add` role and matched `role` are nonempty,
the output is the original text with comment delimiters wrapped around the
engine's line range — from the match's first line through the line of the
character one past the match, which is the line *after* the block when the
closing brace is followed by a newline — followed by an appended copy of that
whole line range (it contains the entire matched declaration) in which
exactly one maximal quoted value sitting after a `role ws = ws "` anchor is
replaced by the `add` role; everything else in the copy, the member content
included, is kept verbatim.  Which anchor is rewritten is chosen by the
regex's leading greedy `.+` (the last matchable one in the copied range), not
necessarily the matched declaration's own `role` line. -/
theorem claim_C2_amended (F : LC) (r : IAMMatchedResource) (i : Nat) (lens : List Nat)
    (members : List LC)
    (hres : searchToks (iamDeclToks r) F = some (i, lens))
    (hparse : jsonParseStringArray (sliceLens F i lens 24 29) = some members)
    (hfilter : members.filter (fun m => m ≠ r.member) = [])
    (hadd : r.add ≠ []) (hrole : r.role ≠ []) :
    iamProcessFile r F F =
      Except.ok (some (commentLines F (findLineNumbersFromCharacters F i)
          (findLineNumbersFromCharacters F (i + lens.sum)) ++
        roleReplace r.add ('\n' :: '\n' :: copyLines F (findLineNumbersFromCharacters F i) (findLineNumbersFromCharacters F (i + lens.sum))))) ∧
    matchedText F i lens <:+: copyLines F (findLineNumbersFromCharacters F i) (findLineNumbersFromCharacters F (i + lens.sum)) ∧
    ∃ A v B,
      '\n' :: '\n' :: copyLines F (findLineNumbersFromCharacters F i) (findLineNumbersFromCharacters F (i + lens.sum)) = A ++ v ++ B ∧
      roleReplace r.add ('\n' :: '\n' :: copyLines F (findLineNumbersFromCharacters F i) (findLineNumbersFromCharacters F (i + lens.sum))) = A ++ r.add ++ B ∧
      (∃ A0 u1 u2, A = A0 ++ "role".toList ++ u1 ++ ['='] ++ u2 ++ ['\"'] ∧
        (∀ c ∈ u1, isWsChar c = true) ∧ (∀ c ∈ u2, isWsChar c = true)) ∧
      v ≠ [] ∧ ['\"'] <+: B := by
  have hm := searchToks_sound _ _ _ _ hres
  have hc := matchToks_consumes _ _ _ hm
  obtain ⟨hpre0, pre, u1, u2, post, hmeq, hprene, hu1, hu2, hpostne⟩ :=
    iam_match_shape r lens (F.drop i) hc
  have hsum := consumes_sum_le _ _ _ hc
  have hsumpos : 1 ≤ lens.sum := by
    by_contra hz
    push_neg at hz
    have h0 : lens.sum = 0 := by omega
    rw [h0, List.take_zero] at hmeq
    rcases List.append_eq_nil.mp hmeq.symm with ⟨h1, -⟩
    exact hprene h1
  have hiF : i + lens.sum ≤ F.length := by
    rw [List.length_drop] at hsum
    by_cases hgt : i ≤ F.length
    · omega
    · exfalso
      have hdropnil : F.drop i = [] := List.drop_eq_nil_of_le (by omega)
      rw [hdropnil, List.take_nil] at hmeq
      rcases List.append_eq_nil.mp hmeq.symm with ⟨h1, -⟩
      exact hprene h1
  have htl : (F.take i).length = i := by
    rw [List.length_take]
    omega
  have hFi : F[i]? = some 'r' := by
    conv_lhs => rw [← List.take_append_drop i F]
    rw [List.getElem?_append_right (by rw [htl]), htl, Nat.sub_self]
    obtain ⟨t, ht⟩ := hpre0
    rw [← ht]
    rfl
  have hstart : findLineNumbersFromCharacters F i = (F.take i).count '\n' + 1 := by
    unfold findLineNumbersFromCharacters
    rw [countNLUpto_eq_count_take, List.take_succ, hFi, List.count_append]
    have hz : List.count '\n' (some 'r').toList = 0 := by decide
    rw [hz]
    omega
  have hend : findLineNumbersFromCharacters F (i + lens.sum) =
      (F.take (i + lens.sum + 1)).count '\n' + 1 := by
    unfold findLineNumbersFromCharacters
    rw [countNLUpto_eq_count_take]
    omega
  have hinf0 := copyLines_infix F i lens.sum hiF hsumpos
  rw [← hstart, ← hend] at hinf0
  have hinf : matchedText F i lens <:+: copyLines F (findLineNumbersFromCharacters F i) (findLineNumbersFromCharacters F (i + lens.sum)) := hinf0
  obtain ⟨X, Y, hXY⟩ := hinf0
  have hsubj : '\n' :: '\n' :: copyLines F (findLineNumbersFromCharacters F i) (findLineNumbersFromCharacters F (i + lens.sum)) =
      ('\n' :: '\n' :: (X ++ pre)) ++ ("role".toList ++ (u1 ++ (['='] ++ (u2 ++
        (['\"'] ++ (r.role ++ (['\"'] ++ (post ++ Y)))))))) := by
    rw [← hXY, hmeq]
    simp [List.append_assoc]
  have hpostY : post ++ Y ≠ [] := by
    intro hcontra
    rcases List.append_eq_nil.mp hcontra with ⟨h1, -⟩
    exact hpostne h1
  have hxne : ('\n' :: '\n' :: (X ++ pre) : LC) ≠ [] := by simp
  have hsome : (searchToks roleReplToks ('\n' :: '\n' :: copyLines F (findLineNumbersFromCharacters F i) (findLineNumbersFromCharacters F (i + lens.sum)))).isSome := by
    rw [hsubj]
    exact roleRepl_search_isSome _ _ _ _ _ hxne hu1 hu2 hrole hpostY
  obtain ⟨p2, hp2⟩ := Option.isSome_iff_exists.mp hsome
  obtain ⟨i2, lens2⟩ := p2
  obtain ⟨A, v, B, hAVB, hreplAB, hanchor, hvne, hBq⟩ :=
    roleReplace_decomp r.add _ i2 lens2 hp2
  have hout : iamProcessFile r F F =
      Except.ok (some (commentLines F (findLineNumbersFromCharacters F i)
          (findLineNumbersFromCharacters F (i + lens.sum)) ++
        roleReplace r.add ('\n' :: '\n' :: copyLines F (findLineNumbersFromCharacters F i) (findLineNumbersFromCharacters F (i + lens.sum))))) := by
    unfold iamProcessFile
    rw [hres]
    simp only [hparse, hfilter, if_neg hadd]
  exact ⟨hout, hinf, A, v, B, hAVB, hreplAB, hanchor, hvne, hBq⟩

/-- C2 (counterexample): with the declaration block followed by a comment
line that itself contains `role = "roles/owner"`, the engine comments out the
block *and* the following comment line (the character one past the match is
the newline after the closing brace, and the offset-to-line translation
counts it), and in the appended copy the rewritten role value is the comment
line's `roles/owner` — the last matchable anchor under the leading greedy
`.+` — while the declaration's own `role = "roles/viewer"` value is kept,
contradicting "an appended copy of that block in which the role value is
replaced by the add role". -/
theorem claim_C2_counterexample :
    findAndModifyIAMRoleBindings
        [⟨"/repo/x/m.tf".toList,
          ("resource \"google_project_iam_binding\" \"b\" \x7b\n" ++
           "project = \"p\"\n" ++
           "role = \"roles/viewer\"\n" ++
           "members = [\n" ++
           "\"user:alice@example.com\"\n" ++
           "]\n" ++
           "\x7d\n" ++
           "# role = \"roles/owner\" x\n").toList⟩]
        none
        [⟨"p".toList, "user:alice@example.com".toList, "roles/viewer".toList,
          "roles/editor".toList, "rid".toList, "retag".toList, "b".toList⟩] =
      Except.ok
        ([⟨"/repo/x/m.tf".toList,
           ("/* resource \"google_project_iam_binding\" \"b\" \x7b\n" ++
            "project = \"p\"\n" ++
            "role = \"roles/viewer\"\n" ++
            "members = [\n" ++
            "\"user:alice@example.com\"\n" ++
            "]\n" ++
            "\x7d\n" ++
            "# role = \"roles/owner\" x */\n" ++
            "\n\n" ++
            "resource \"google_project_iam_binding\" \"b\" \x7b\n" ++
            "project = \"p\"\n" ++
            "role = \"roles/viewer\"\n" ++
            "members = [\n" ++
            "\"user:alice@example.com\"\n" ++
            "]\n" ++
            "\x7d\n" ++
            "# role = \"roles/editor\" x").toList⟩],
         [⟨"rid".toList, "retag".toList⟩]) := by decide

theorem claim_C2_witness :
    iamProcessFile
        (⟨"p".toList, "user:alice@example.com".toList, "roles/viewer".toList,
        "roles/editor".toList, "rid".toList, "retag".toList, "b".toList⟩ : IAMMatchedResource)
        ("resource \"google_project_iam_binding\" \"b\" \x7b\n" ++
       "  project = \"p\"\n" ++
       "  role    = \"roles/viewer\"\n" ++
       "  members = [\n" ++
       "    \"user:alice@example.com\"\n" ++
       "  ]\n" ++
       "\x7d").toList
        ("resource \"google_project_iam_binding\" \"b\" \x7b\n" ++
       "  project = \"p\"\n" ++
       "  role    = \"roles/viewer\"\n" ++
       "  members = [\n" ++
       "    \"user:alice@example.com\"\n" ++
       "  ]\n" ++
       "\x7d").toList =
      Except.ok (some (commentLines ("resource \"google_project_iam_binding\" \"b\" \x7b\n" ++
       "  project = \"p\"\n" ++
       "  role    = \"roles/viewer\"\n" ++
       "  members = [\n" ++
       "    \"user:alice@example.com\"\n" ++
       "  ]\n" ++
       "\x7d").toList
          (findLineNumbersFromCharacters ("resource \"google_project_iam_binding\" \"b\" \x7b\n" ++
       "  project = \"p\"\n" ++
       "  role    = \"roles/viewer\"\n" ++
       "  members = [\n" ++
       "    \"user:alice@example.com\"\n" ++
       "  ]\n" ++
       "\x7d").toList 0)
          (findLineNumbersFromCharacters ("resource \"google_project_iam_binding\" \"b\" \x7b\n" ++
       "  project = \"p\"\n" ++
       "  role    = \"roles/viewer\"\n" ++
       "  members = [\n" ++
       "    \"user:alice@example.com\"\n" ++
       "  ]\n" ++
       "\x7d").toList
      (0 + ([8, 1, 28, 1, 3, 1, 1, 3, 7, 1, 1, 1, 3, 3, 4, 4, 1, 1, 14, 3, 7, 1, 1, 1, 1, 5, 24, 3, 1, 1, 1] : List Nat).sum)) ++
        roleReplace "roles/editor".toList ('\n' :: '\n' :: copyLines ("resource \"google_project_iam_binding\" \"b\" \x7b\n" ++
       "  project = \"p\"\n" ++
       "  role    = \"roles/viewer\"\n" ++
       "  members = [\n" ++
       "    \"user:alice@example.com\"\n" ++
       "  ]\n" ++
       "\x7d").toList
      (findLineNumbersFromCharacters ("resource \"google_project_iam_binding\" \"b\" \x7b\n" ++
       "  project = \"p\"\n" ++
       "  role    = \"roles/viewer\"\n" ++
       "  members = [\n" ++
       "    \"user:alice@example.com\"\n" ++
       "  ]\n" ++
       "\x7d").toList 0) (findLineNumbersFromCharacters ("resource \"google_project_iam_binding\" \"b\" \x7b\n" ++
       "  project = \"p\"\n" ++
       "  role    = \"roles/viewer\"\n" ++
       "  members = [\n" ++
       "    \"user:alice@example.com\"\n" ++
       "  ]\n" ++
       "\x7d").toList
      (0 + ([8, 1, 28, 1, 3, 1, 1, 3, 7, 1, 1, 1, 3, 3, 4, 4, 1, 1, 14, 3, 7, 1, 1, 1, 1, 5, 24, 3, 1, 1, 1] : List Nat).sum))))) ∧
    matchedText ("resource \"google_project_iam_binding\" \"b\" \x7b\n" ++
       "  project = \"p\"\n" ++
       "  role    = \"roles/viewer\"\n" ++
       "  members = [\n" ++
       "    \"user:alice@example.com\"\n" ++
       "  ]\n" ++
       "\x7d").toList 0
        ([8, 1, 28, 1, 3, 1, 1, 3, 7, 1, 1, 1, 3, 3, 4, 4, 1, 1, 14, 3, 7, 1, 1, 1, 1, 5, 24, 3, 1, 1, 1] : List Nat) <:+:
      copyLines ("resource \"google_project_iam_binding\" \"b\" \x7b\n" ++
       "  project = \"p\"\n" ++
       "  role    = \"roles/viewer\"\n" ++
       "  members = [\n" ++
       "    \"user:alice@example.com\"\n" ++
       "  ]\n" ++
       "\x7d").toList
      (findLineNumbersFromCharacters ("resource \"google_project_iam_binding\" \"b\" \x7b\n" ++
       "  project = \"p\"\n" ++
       "  role    = \"roles/viewer\"\n" ++
       "  members = [\n" ++
       "    \"user:alice@example.com\"\n" ++
       "  ]\n" ++
       "\x7d").toList 0) (findLineNumbersFromCharacters ("resource \"google_project_iam_binding\" \"b\" \x7b\n" ++
       "  project = \"p\"\n" ++
       "  role    = \"roles/viewer\"\n" ++
       "  members = [\n" ++
       "    \"user:alice@example.com\"\n" ++
       "  ]\n" ++
       "\x7d").toList
      (0 + ([8, 1, 28, 1, 3, 1, 1, 3, 7, 1, 1, 1, 3, 3, 4, 4, 1, 1, 14, 3, 7, 1, 1, 1, 1, 5, 24, 3, 1, 1, 1] : List Nat).sum)) ∧
    ∃ A v B,
      '\n' :: '\n' :: copyLines ("resource \"google_project_iam_binding\" \"b\" \x7b\n" ++
       "  project = \"p\"\n" ++
       "  role    = \"roles/viewer\"\n" ++
       "  members = [\n" ++
       "    \"user:alice@example.com\"\n" ++
       "  ]\n" ++
       "\x7d").toList
      (findLineNumbersFromCharacters ("resource \"google_project_iam_binding\" \"b\" \x7b\n" ++
       "  project = \"p\"\n" ++
       "  role    = \"roles/viewer\"\n" ++
       "  members = [\n" ++
       "    \"user:alice@example.com\"\n" ++
       "  ]\n" ++
       "\x7d").toList 0) (findLineNumbersFromCharacters ("resource \"google_project_iam_binding\" \"b\" \x7b\n" ++
       "  project = \"p\"\n" ++
       "  role    = \"roles/viewer\"\n" ++
       "  members = [\n" ++
       "    \"user:alice@example.com\"\n" ++
       "  ]\n" ++
       "\x7d").toList
      (0 + ([8, 1, 28, 1, 3, 1, 1, 3, 7, 1, 1, 1, 3, 3, 4, 4, 1, 1, 14, 3, 7, 1, 1, 1, 1, 5, 24, 3, 1, 1, 1] : List Nat).sum)) = A ++ v ++ B ∧
      roleReplace "roles/editor".toList ('\n' :: '\n' :: copyLines ("resource \"google_project_iam_binding\" \"b\" \x7b\n" ++
       "  project = \"p\"\n" ++
       "  role    = \"roles/viewer\"\n" ++
       "  members = [\n" ++
       "    \"user:alice@example.com\"\n" ++
       "  ]\n" ++
       "\x7d").toList
      (findLineNumbersFromCharacters ("resource \"google_project_iam_binding\" \"b\" \x7b\n" ++
       "  project = \"p\"\n" ++
       "  role    = \"roles/viewer\"\n" ++
       "  members = [\n" ++
       "    \"user:alice@example.com\"\n" ++
       "  ]\n" ++
       "\x7d").toList 0) (findLineNumbersFromCharacters ("resource \"google_project_iam_binding\" \"b\" \x7b\n" ++
       "  project = \"p\"\n" ++
       "  role    = \"roles/viewer\"\n" ++
       "  members = [\n" ++
       "    \"user:alice@example.com\"\n" ++
       "  ]\n" ++
       "\x7d").toList
      (0 + ([8, 1, 28, 1, 3, 1, 1, 3, 7, 1, 1, 1, 3, 3, 4, 4, 1, 1, 14, 3, 7, 1, 1, 1, 1, 5, 24, 3, 1, 1, 1] : List Nat).sum))) = A ++ "roles/editor".toList ++ B ∧
      (∃ A0 u1 u2, A = A0 ++ "role".toList ++ u1 ++ ['='] ++ u2 ++ ['\"'] ∧
        (∀ c ∈ u1, isWsChar c = true) ∧ (∀ c ∈ u2, isWsChar c = true)) ∧
      v ≠ [] ∧ ['\"'] <+: B :=
  claim_C2_amended
    ("resource \"google_project_iam_binding\" \"b\" \x7b\n" ++
       "  project = \"p\"\n" ++
       "  role    = \"roles/viewer\"\n" ++
       "  members = [\n" ++
       "    \"user:alice@example.com\"\n" ++
       "  ]\n" ++
       "\x7d").toList
    ⟨"p".toList, "user:alice@example.com".toList, "roles/viewer".toList,
        "roles/editor".toList, "rid".toList, "retag".toList, "b".toList⟩
    0 [8, 1, 28, 1, 3, 1, 1, 3, 7, 1, 1, 1, 3, 3, 4, 4, 1, 1, 14, 3, 7, 1, 1, 1, 1, 5, 24, 3, 1, 1, 1]
    ["user:alice@example.com".toList]
    (by decide) (by decide) (by decide) (by decide) (by decide)

end RecIaC
